import Mathlib

/-!
Verification development for the `vb` build helper (`src/vb.py`).

The Python source is shallowly embedded over `List Char` (named `PyStr`
below), so that every modelled operation is executable and every concrete
run can be settled by `decide` / `rfl`.  Python `dict`s are embedded as
insertion-ordered association lists (`Table`) whose insert operation
replaces in place, matching CPython semantics.  Functions that can raise
an uncaught exception (`KeyError`) return `Option`.
-/

namespace VB

/-- Python strings are modelled as lists of unicode characters. -/
abbrev PyStr := List Char

/-- Shorthand for embedding a Lean string literal as a `PyStr`. -/
def pys (s : String) : PyStr := s.data

/-- Python `str.strip()` whitespace class (ASCII part, which is all the
source ever feeds it). -/
def isPySpace (c : Char) : Bool :=
  c = ' ' || c = '\t' || c = '\n' || c = '\r' || c = '\x0b' || c = '\x0c'

/-- Python `str.lstrip()` with no argument. -/
def plstrip (s : PyStr) : PyStr := s.dropWhile isPySpace

/-- Python `str.rstrip()` with no argument. -/
def prstrip (s : PyStr) : PyStr := (s.reverse.dropWhile isPySpace).reverse

/-- Python `str.strip()` with no argument. -/
def pstrip (s : PyStr) : PyStr := prstrip (plstrip s)

/-- Python `str.lstrip('# ')`: drop leading characters belonging to the
set `{'#', ' '}` (used at `src/vb.py:311`). -/
def lstripHashSpace (s : PyStr) : PyStr := s.dropWhile (fun c => c = '#' || c = ' ')

/-- Python `key.startswith('#')` (`src/vb.py:309`). -/
def startsWithHash : PyStr → Bool
  | [] => false
  | c :: _ => c = '#'

/-- Python `str.upper()` (ASCII; the only header compared is `[PACKAGES]`). -/
def asciiUpper (s : PyStr) : PyStr := s.map Char.toUpper

/-- Python `str.casefold()` restricted to ASCII, which is what the ini
keys use. -/
def asciiLower (s : PyStr) : PyStr := s.map Char.toLower

/-- Python `str.title()` for ASCII text: an alphabetic character is
uppercased when the previous character is not alphabetic and lowercased
otherwise (`key.title()` at `src/vb.py:202`). -/
def titleAux : Bool → PyStr → PyStr
  | _, [] => []
  | prevAlpha, c :: r =>
    (if c.isAlpha then (if prevAlpha then c.toLower else c.toUpper) else c) ::
      titleAux c.isAlpha r

/-- Python `str.title()` (ASCII). -/
def titleCase (s : PyStr) : PyStr := titleAux false s

/-- Python `line.split('=', 2)` followed by the `len(parts) == 2` test that
`vb.py` always performs: the result is `some (before, after)` exactly when
the line contains exactly one `'='`. -/
def splitEq (l : PyStr) : Option (PyStr × PyStr) :=
  match l.dropWhile (· ≠ '=') with
  | [] => none
  | _ :: b => if '=' ∈ b then none else some (l.takeWhile (· ≠ '='), b)

/-- Python `file.readlines()` / iterating a text file: split the content
into lines, each keeping its trailing newline (the final line may lack
one). -/
def readlines : PyStr → List PyStr
  | [] => []
  | c :: rest =>
    if c = '\n' then ['\n'] :: readlines rest
    else
      match readlines rest with
      | [] => [[c]]
      | l :: ls => (c :: l) :: ls

/-- Python `''.join(lines)`. -/
def joinAll (ls : List PyStr) : PyStr := ls.foldr (· ++ ·) []

/-- Python string comparison `a < b`: lexicographic on code points. -/
def ltS : PyStr → PyStr → Bool
  | [], [] => false
  | [], _ :: _ => true
  | _ :: _, [] => false
  | a :: as', b :: bs => if a < b then true else if b < a then false else ltS as' bs

/-- Insert into a strictly `ltS`-increasing list, dropping duplicates. -/
def insertSD (x : PyStr) : List PyStr → List PyStr
  | [] => [x]
  | y :: ys => if ltS x y then x :: y :: ys else if ltS y x then y :: insertSD x ys else y :: ys

/-- Python `sorted(set(...))` on strings: the strictly increasing list of
the distinct elements. -/
def sortSD (l : List PyStr) : List PyStr := l.foldr insertSD []

/-- A Python `dict` with `PyStr` keys and values: insertion-ordered
association list, unique keys. -/
abbrev Table := List (PyStr × PyStr)

/-- The keys of a table, in order. -/
def tkeys (t : Table) : List PyStr := t.map Prod.fst

/-- Python `d[k]` / `k in d` lookup. -/
def tlookup : Table → PyStr → Option PyStr
  | [], _ => none
  | (k, v) :: t, q => if k = q then some v else tlookup t q

/-- Python `d[k] = v`: replace in place if the key exists, else append. -/
def tinsert : Table → PyStr → PyStr → Table
  | [], k, v => [(k, v)]
  | (k', v') :: t, k, v => if k' = k then (k, v) :: t else (k', v') :: tinsert t k v

/-- Python `del d[k]` / successful `d.pop(k)` (the caller checks presence). -/
def tremove (t : Table) (k : PyStr) : Table := t.filter (fun e => e.1 ≠ k)

/-! ### Config merge engine (`Model.maybe_update_ini`, `Model.make_packages_section`) -/

/-- One line generated for an entry of the `packages` dict:
`f'{name} = {value}'` (`src/vb.py:291`). -/
def lineActive (k v : PyStr) : PyStr := k ++ pys " = " ++ v

/-- One line generated for an entry of the global `Packages` dict:
`f'# {name} = {value}'` (`src/vb.py:293`). -/
def lineInactive (k v : PyStr) : PyStr := pys "# " ++ k ++ pys " = " ++ v

/-- All candidate lines of the regenerated `[Packages]` section, before the
`set`/`sorted` normalisation (`src/vb.py:289-293`). -/
def allSectionLines (packages Packages : Table) : List PyStr :=
  packages.map (fun e => lineActive e.1 e.2) ++ Packages.map (fun e => lineInactive e.1 e.2)

/-- `Model.make_packages_section` (`src/vb.py:287-294`): header plus the
sorted, deduplicated lines joined with newlines, with a final newline. -/
def make_packages_section (packages Packages : Table) : PyStr :=
  pys "[Packages]\n" ++ List.intercalate (pys "\n") (sortSD (allSectionLines packages Packages)) ++ pys "\n"

/-- The test `line.upper().startswith('[PACKAGES]')` (`src/vb.py:316`). -/
def isPackagesHeader (l : PyStr) : Bool := (pys "[PACKAGES]").isPrefixOf (asciiUpper l)

/-- The line scan of `maybe_update_ini` (`src/vb.py:303-319`): lines before
the first `[Packages]` header are copied through; the rest form the old
section body.  Returns (copied lines, header seen?, section body lines). -/
def splitHeader : List PyStr → List PyStr × Bool × List PyStr
  | [] => ([], false, [])
  | l :: ls =>
    if isPackagesHeader l then ([], true, ls)
    else
      let r := splitHeader ls
      (l :: r.1, r.2.1, r.2.2)

/-- Processing of one old `[Packages]`-section line (`src/vb.py:305-315`):
a `key = value` line updates `packages[key]`; a commented key is re-added
under its commented spelling when its uncommented name is not already
present, and reactivates the name otherwise. -/
def updatePackagesLine (packages : Table) (line : PyStr) : Table :=
  match splitEq line with
  | none => packages
  | some (k0, v0) =>
    let key := pstrip k0
    let value := pstrip v0
    if startsWithHash key then
      let name := lstripHashSpace key
      if (tlookup packages name).isSome then tinsert packages name value
      else tinsert packages key value
    else tinsert packages key value

/-- Folding `updatePackagesLine` over the old section body
(`src/vb.py:303-315`, starting from `self.packages.copy()`). -/
def mergeBody (packages : Table) (body : List PyStr) : Table :=
  body.foldl updatePackagesLine packages

/-- `Model.maybe_update_ini` (`src/vb.py:297-325`) as a function of the
global `Packages` table, `self.packages`, and the current file content.
Returns the reconstructed content and whether the file is (re)written,
i.e. the dirty check `new != old`. -/
def maybe_update_ini (Packages selfPackages : Table) (content : PyStr) : PyStr × Bool :=
  let old := readlines content
  let r := splitHeader old
  let packages := mergeBody selfPackages r.2.2
  let newContent := joinAll r.1 ++ make_packages_section packages Packages
  (newContent, newContent ≠ content)

/-! ### Source scanner (`Model.discover`, `Model.update_packages`, the
regexes `VERSION_RX`, `GIO_RX` and the package alternation) -/

/-- Regex word characters (`\w`, ASCII part). -/
def isWordChar (c : Char) : Bool := c.isAlphanum || c = '_'

/-- Word-ness of an optional character; `none` (start/end of string) is a
non-word position, as for `\b`. -/
def wordB : Option Char → Bool
  | none => false
  | some c => isWordChar c

/-- Whether `\b<name>\b` matches at the current position, where `prev` is
the character immediately before the position and `l` the remainder of the
line. -/
def matchWordAt (prev : Option Char) (name : PyStr) (l : PyStr) : Bool :=
  !name.isEmpty && name.isPrefixOf l &&
    (wordB prev != wordB name.head?) &&
    (wordB name.getLast? != wordB (l.drop name.length).head?)

/-- Scan for the leftmost position at which some alternative matches; at a
given position alternatives are tried in order, as Python's regex engine
does for `\b(?P<pkg>A|B|...)\b`. -/
def fwmAux (names : List PyStr) : Option Char → PyStr → Option PyStr
  | _, [] => none
  | prev, c :: rest =>
    match names.find? (fun n => matchWordAt prev n (c :: rest)) with
    | some n => some n
    | none => fwmAux names (some c) rest

/-- `pkg_rx.search(line)` for the alternation built from `names`
(`src/vb.py:238`, `src/vb.py:570-571`); returns the matched name
(group `pkg`). -/
def findWordMatch (names : List PyStr) (l : PyStr) : Option PyStr := fwmAux names none l

/-- The three alternatives of `GIO_RX` (`src/vb.py:566`). -/
def gioAlts : List PyStr := [pys "File.", pys "ZlibCompressor", pys "Converter"]

/-- Search loop for `GIO_RX`, which has a leading `\b` but no trailing
one. -/
def gioAux : Option Char → PyStr → Bool
  | _, [] => false
  | prev, c :: rest =>
    gioAlts.any (fun n => n.isPrefixOf (c :: rest) && (wordB prev != wordB n.head?))
      || gioAux (some c) rest

/-- `GIO_RX.search(line) is not None` (`src/vb.py:250-251`). -/
def GIO_RX_search (l : PyStr) : Bool := gioAux none l

/-- Match a literal, returning the rest of the input. -/
def litP (t l : PyStr) : Option PyStr :=
  if t.isPrefixOf l then some (l.drop t.length) else none

/-- Regex `\s+`: one or more whitespace characters (greedy, and the
following token of `VERSION_RX` starts with a non-space, so maximal munch
is exact). -/
def ws1 : PyStr → Option PyStr
  | [] => none
  | c :: r => if isPySpace c then some (r.dropWhile isPySpace) else none

/-- Regex `\s*`. -/
def ws0 (l : PyStr) : PyStr := l.dropWhile isPySpace

/-- Try a list of literal alternatives in order, as the regex engine does
for an alternation of literals. -/
def litAlt : List PyStr → PyStr → Option PyStr
  | [], _ => none
  | t :: ts, l =>
    match litP t l with
    | some r => some r
    | none => litAlt ts l

/-- Whether `VERSION_RX` matches at the current position:
`const\s+string\s+(?:[Vv]ersion|VERSION)\s*=\s*"(?P<version>[^"]+)"\s*;`
(`src/vb.py:567-568`).  Returns the captured `version` group. -/
def matchVersionAt (l : PyStr) : Option PyStr :=
  (litP (pys "const") l).bind fun l1 =>
  (ws1 l1).bind fun l2 =>
  (litP (pys "string") l2).bind fun l3 =>
  (ws1 l3).bind fun l4 =>
  (match litAlt [pys "version", pys "Version", pys "VERSION"] l4 with
   | none => none
   | some l5 =>
     (litP (pys "=") (ws0 l5)).bind fun l6 =>
     match ws0 l6 with
     | '"' :: r =>
       let cap := r.takeWhile (· ≠ '"')
       if cap.isEmpty then none
       else
         match r.dropWhile (· ≠ '"') with
         | '"' :: r2 => (litP (pys ";") (ws0 r2)).map fun _ => cap
         | _ => none
     | _ => none)

/-- `VERSION_RX.search(line)`: try every start position, leftmost first. -/
def VERSION_RX_search : PyStr → Option PyStr
  | [] => none
  | l@(_ :: rest) =>
    match matchVersionAt l with
    | some v => some v
    | none => VERSION_RX_search rest

/-- The name `'Gio'` (`src/vb.py:569`). -/
def GIO : PyStr := pys "Gio"

/-- The mutable state of `Model.discover`'s scan: `self.packages`, the
global `Packages` registry, `self.version`, and the name list the current
compiled alternation `pkg_rx` was built from. -/
structure ScanState where
  packages : Table
  Packages : Table
  version : Option PyStr
  rxNames : List PyStr
deriving Repr, DecidableEq

/-- The platform/flag configuration `discover` consults: `WIN` and
`self.archive`. -/
structure ScanCfg where
  win : Bool
  archive : Bool
deriving Repr, DecidableEq

/-- `more_to_do` (`src/vb.py:235-236`): the global registry is non-empty,
or a version is still wanted for a Windows zip. -/
def more_to_do (cfg : ScanCfg) (s : ScanState) : Bool :=
  !s.Packages.isEmpty || (cfg.win && cfg.archive && s.version.isNone)

/-- `Model.update_packages` (`src/vb.py:270-275`).  `Packages[pkg]` raises
`KeyError` when `pkg` is no longer registered (possible on Windows via the
stale regex, see `discover`), modelled as `none`.  The alternation is
rebuilt from the remaining names only when some remain; otherwise the old
(stale) regex object is returned unchanged. -/
def update_packages (s : ScanState) (pkg : PyStr) : Option ScanState :=
  match tlookup s.Packages pkg with
  | none => none
  | some v =>
    let g := tremove s.Packages pkg
    some { s with
           packages := tinsert s.packages pkg v
           Packages := g
           rxNames := if g.isEmpty then s.rxNames else tkeys g }

/-- The body of `discover`'s per-line loop (`src/vb.py:244-257`): package
alternation first, then the `Gio` heuristic (only while `Gio` is pending),
then the version pattern (only while no version is known). -/
def stepLine (s : ScanState) (line : PyStr) : Option ScanState :=
  match findWordMatch s.rxNames line with
  | some p => update_packages s p
  | none =>
    if (tlookup s.Packages GIO).isSome && GIO_RX_search line then
      update_packages s GIO
    else if s.version.isNone then
      match VERSION_RX_search line with
      | some v => some { s with version := some v }
      | none => some s
    else some s

/-- The per-file line loop (`src/vb.py:241-257`): before each line,
`if not more_to_do(): break`.  Also returns how many lines were examined
after the break check. -/
def scanLines (cfg : ScanCfg) : ScanState → List PyStr → Option (ScanState × Nat)
  | s, [] => some (s, 0)
  | s, l :: ls =>
    if more_to_do cfg s then
      match stepLine s l with
      | none => none
      | some s' => (scanLines cfg s' ls).map fun r => (r.1, r.2 + 1)
    else some (s, 0)

/-- The outer file loop (`src/vb.py:239-259`): each listed file is opened,
scanned, and afterwards `if not more_to_do(): break`.  Also returns how
many files were opened. -/
def scanFiles (cfg : ScanCfg) : ScanState → List (List PyStr) → Option (ScanState × Nat)
  | s, [] => some (s, 0)
  | s, f :: fs =>
    match scanLines cfg s f with
    | none => none
    | some r =>
      if more_to_do cfg r.1 then (scanFiles cfg r.1 fs).map fun q => (q.1, q.2 + 1)
      else some (r.1, 1)

/-- The scanning phase of `Model.discover` (`src/vb.py:235-259`): if there
is anything to do, compile the alternation from the registry's keys and
scan the files in order. -/
def discoverScan (cfg : ScanCfg) (packages Packages : Table) (version : Option PyStr)
    (files : List (List PyStr)) : Option (ScanState × Nat) :=
  let s : ScanState := ⟨packages, Packages, version, tkeys Packages⟩
  if more_to_do cfg s then scanFiles cfg s files else some (s, 0)

/-! ### Settings-file parser (`Model.read_ini_item`, `Model.read_ini_category`) -/

/-- The `Packages`-category branch of `Model.read_ini_item`
(`src/vb.py:196-207`) acting on the global registry and the project-local
dict.  A line without exactly one `=` is ignored.  For a non-master file
the key is stored locally and then `Packages.pop(key)` is executed, which
raises `KeyError` (modelled as `none`) when the key is not currently a
global default; the local store does happen first, but the uncaught
exception aborts the whole run. -/
def read_ini_item_packages (master : Bool) (Packages packages : Table) (line : PyStr) :
    Option (Table × Table) :=
  match splitEq line with
  | none => some (Packages, packages)
  | some (k0, v0) =>
    let key := titleCase (asciiLower (pstrip k0))
    let value := pstrip v0
    if master then some (tinsert Packages key value, packages)
    else
      match tlookup Packages key with
      | none => none
      | some _ => some (tremove Packages key, tinsert packages key value)

/-- The parser categories (`src/vb.py:603-610`). -/
inductive Category where
  | GENERAL
  | PACKAGES
  | EXTRA_FILES
  | APP_TEMPLATE
  | GUI_TEMPLATE
  | LIB_TEMPLATE
deriving Repr, DecidableEq

/-- The accumulating per-category state the ini parser mutates: the
package table plus the contents of `self.extra_files`,
`self.app_template`, `self.gui_template`, `self.lib_template`. -/
structure IniState where
  packages : Table
  extra_files : List PyStr
  app_template : PyStr
  gui_template : PyStr
  lib_template : PyStr
deriving Repr, DecidableEq

/-- `Model.read_ini_category` (`src/vb.py:167-187`): find the first `]`,
casefold the text between `[` and it, and switch category; entering
`ExtraFiles` or a template category clears that category's accumulated
content, entering `Packages` clears nothing, and unknown names fall back
to `General`. -/
def read_ini_category (st : IniState) (category : Category) (line : PyStr) :
    IniState × Category :=
  match line.findIdx? (· = ']') with
  | none => (st, category)
  | some i =>
    let name := asciiLower ((line.drop 1).take (i - 1))
    if name = pys "packages" then (st, Category.PACKAGES)
    else if name = pys "extrafiles" then ({ st with extra_files := [] }, Category.EXTRA_FILES)
    else if name = pys "apptemplate" then ({ st with app_template := [] }, Category.APP_TEMPLATE)
    else if name = pys "guitemplate" then ({ st with gui_template := [] }, Category.GUI_TEMPLATE)
    else if name = pys "libtemplate" then ({ st with lib_template := [] }, Category.LIB_TEMPLATE)
    else (st, Category.GENERAL)

/-! ### Distribution assembler (`Model.maybe_copy_win_dlls`, `Model.win_zip`) -/

/-- `dll_rx.match(line)` for `^\s*\S+\s=>\s(?P<dll>\S+)`
(`src/vb.py:407`): optional leading whitespace, a non-space token, exactly
one whitespace character, `=>`, exactly one whitespace character, and the
captured non-space path. -/
def dll_rx_match (l : PyStr) : Option PyStr :=
  let l1 := l.dropWhile isPySpace
  let tok := l1.takeWhile (fun c => !isPySpace c)
  match l1.drop tok.length with
  | [] => none
  | c :: r1 =>
    if isPySpace c then
      if (pys "=>").isPrefixOf r1 then
        match r1.drop 2 with
        | [] => none
        | c2 :: r2 =>
          if isPySpace c2 then
            let dll := r2.takeWhile (fun c => !isPySpace c)
            if dll.isEmpty then none else some dll
          else none
      else none
    else none

/-- Python `'mingw64' in dll`: substring test at any position. -/
def isSubstr : PyStr → PyStr → Bool
  | n, [] => n.isEmpty
  | n, l@(_ :: t) => n.isPrefixOf l || isSubstr n t

/-- The decision `maybe_copy_win_dlls` takes for one lister line
(`src/vb.py:409-416`): a shape-matching line whose path contains
`mingw64` has the configured msys2 root prepended and that file is copied;
everything else is skipped.  Returns the copied source path. -/
def maybe_copy_win_dll_line (winmsys2 line : PyStr) : Option PyStr :=
  match dll_rx_match line with
  | none => none
  | some dll => if isSubstr (pys "mingw64") dll then some (winmsys2 ++ dll) else none

/-- `Model.maybe_copy_win_dlls` (`src/vb.py:406-418`): the list of library
source paths copied into the distribution directory, one per qualifying
lister output line. -/
def maybe_copy_win_dlls (winmsys2 : PyStr) (lines : List PyStr) : List PyStr :=
  lines.filterMap (maybe_copy_win_dll_line winmsys2)

/-- `pathlib` `relative_to` for a file under directory `d` (used for the
archive entry names, `src/vb.py:446`). -/
def relative_to (d f : PyStr) : PyStr := f.drop (d.length + 1)

/-- The archive construction loop of `Model.win_zip` (`src/vb.py:443-446`):
every globbed file of the distribution directory except the target archive
itself becomes an entry `(source file, archive name)`; `samefile` is
modelled as path equality. -/
def win_zip_entries (distFiles : List PyStr) (target name dist : PyStr) :
    List (PyStr × PyStr) :=
  (distFiles.filter (fun f => f ≠ target)).map fun f => (f, name ++ '/' :: relative_to dist f)

/-! ## Basic lemmas about the table embedding -/

theorem tlookup_tinsert (t : Table) (k v q : PyStr) :
    tlookup (tinsert t k v) q = if k = q then some v else tlookup t q := by
  induction t with
  | nil => simp [tinsert, tlookup]
  | cons e t ih =>
    obtain ⟨k', v'⟩ := e
    by_cases h : k' = k
    · subst h
      simp only [tinsert, if_pos rfl, tlookup]
      by_cases h2 : k' = q <;> simp [h2]
    · simp only [tinsert, if_neg h, tlookup]
      by_cases h2 : k' = q
      · subst h2
        have : ¬ k = k' := fun hh => h hh.symm
        simp [this]
      · simp [h2, ih]

theorem tlookup_cons_self (k v : PyStr) (t : Table) :
    tlookup ((k, v) :: t) k = some v := by
  simp [tlookup]

theorem tlookup_cons_ne (k' v : PyStr) (t : Table) (q : PyStr) (h : k' ≠ q) :
    tlookup ((k', v) :: t) q = tlookup t q := by
  simp [tlookup, h]

theorem tlookup_tremove (t : Table) (k q : PyStr) :
    tlookup (tremove t k) q = if q = k then none else tlookup t q := by
  induction t with
  | nil => simp [tremove, tlookup]
  | cons e t ih =>
    obtain ⟨k', v'⟩ := e
    by_cases h : k' = k
    · subst h
      have h1 : tremove ((k', v') :: t) k' = tremove t k' := by simp [tremove]
      rw [h1, ih]
      by_cases h2 : q = k'
      · simp [h2]
      · simp only [if_neg h2]
        rw [tlookup_cons_ne k' v' t q (fun hh => h2 hh.symm)]
    · have h1 : tremove ((k', v') :: t) k = (k', v') :: tremove t k := by simp [tremove, h]
      rw [h1]
      by_cases h2 : k' = q
      · subst h2
        simp [tlookup_cons_self, h]
      · rw [tlookup_cons_ne k' v' (tremove t k) q h2, tlookup_cons_ne k' v' t q h2, ih]

theorem mem_tkeys_iff_isSome (t : Table) (q : PyStr) :
    q ∈ tkeys t ↔ (tlookup t q).isSome = true := by
  induction t with
  | nil => simp [tkeys, tlookup]
  | cons e t ih =>
    obtain ⟨k, v⟩ := e
    have hk : tkeys ((k, v) :: t) = k :: tkeys t := by simp [tkeys]
    rw [hk, List.mem_cons]
    by_cases h : k = q
    · subst h
      simp [tlookup_cons_self]
    · rw [tlookup_cons_ne k v t q h]
      constructor
      · intro hc
        rcases hc with hc | hc
        · exact absurd hc.symm h
        · exact ih.mp hc
      · intro hc
        exact Or.inr (ih.mpr hc)

theorem tlookup_eq_none_of_not_mem (t : Table) (q : PyStr) (h : q ∉ tkeys t) :
    tlookup t q = none := by
  have := (mem_tkeys_iff_isSome t q).not.mp h
  cases hl : tlookup t q with
  | none => rfl
  | some v => rw [hl] at this; simp at this

theorem mem_of_tlookup_eq_some (t : Table) (q v : PyStr) (h : tlookup t q = some v) :
    (q, v) ∈ t := by
  induction t with
  | nil => simp [tlookup] at h
  | cons e t ih =>
    obtain ⟨k', v'⟩ := e
    by_cases h2 : k' = q
    · subst h2
      simp [tlookup] at h
      simp [h]
    · simp [tlookup, h2] at h
      simp [ih h]

theorem isSome_tlookup_of_mem (t : Table) (q v : PyStr) (h : (q, v) ∈ t) :
    (tlookup t q).isSome = true := by
  induction t with
  | nil => simp at h
  | cons e t ih =>
    obtain ⟨k', v'⟩ := e
    rcases List.mem_cons.mp h with h1 | h1
    · cases h1; simp [tlookup]
    · by_cases h2 : k' = q <;> simp [tlookup, h2, ih h1]

theorem takeWhile_append_stop (p : Char → Bool) (x : PyStr) (b : Char) (y : PyStr)
    (hx : ∀ c ∈ x, p c = true) (hb : p b = false) :
    (x ++ b :: y).takeWhile p = x ∧ (x ++ b :: y).dropWhile p = b :: y := by
  induction x with
  | nil => simp [List.takeWhile, List.dropWhile, hb]
  | cons c cs ih =>
    have hc : p c = true := hx c (by simp)
    have ih' := ih (fun d hd => hx d (by simp [hd]))
    simp [List.takeWhile, List.dropWhile, hc, ih'.1, ih'.2]

/-! ## String lemmas for the merge engine -/

theorem isPySpace_false_of_hash_lt (c : Char) (h : '#' < c) : isPySpace c = false := by
  cases hs : isPySpace c with
  | false => rfl
  | true =>
    exfalso
    have hc : c = ' ' ∨ c = '\t' ∨ c = '\n' ∨ c = '\r' ∨ c = '\x0b' ∨ c = '\x0c' := by
      simpa [isPySpace, or_assoc] using hs
    rcases hc with rfl | rfl | rfl | rfl | rfl | rfl <;> exact absurd h (by decide)

theorem dropWhile_append_all (p : Char → Bool) (a b : PyStr) (ha : ∀ c ∈ a, p c = true) :
    (a ++ b).dropWhile p = b.dropWhile p := by
  induction a with
  | nil => rfl
  | cons c cs ih =>
    have hc : p c = true := ha c (by simp)
    simp [List.dropWhile, hc, ih (fun d hd => ha d (by simp [hd]))]

theorem dropWhile_cons_false (p : Char → Bool) (c : Char) (l : PyStr) (h : p c = false) :
    (c :: l).dropWhile p = c :: l := by
  simp [List.dropWhile, h]

theorem dropWhile_eq_self_head (p : Char → Bool) (c : Char) (l : PyStr)
    (h : (c :: l).dropWhile p = c :: l) : p c = false := by
  cases hp : p c with
  | false => rfl
  | true =>
    exfalso
    rw [List.dropWhile_cons, if_pos hp] at h
    have := List.Sublist.length_le (List.dropWhile_sublist (l := l) (p := p))
    rw [h, List.length_cons] at this
    omega

theorem dropWhile_length_eq (p : Char → Bool) (l : PyStr)
    (h : (l.dropWhile p).length = l.length) : l.dropWhile p = l := by
  cases l with
  | nil => rfl
  | cons c r =>
    by_cases hp : p c = true
    · exfalso
      rw [List.dropWhile_cons, if_pos hp, List.length_cons] at h
      have := List.Sublist.length_le (List.dropWhile_sublist (l := r) (p := p))
      omega
    · rw [List.dropWhile_cons, if_neg hp]

theorem plstrip_cons_keep (c : Char) (l : PyStr) (h : isPySpace c = false) :
    plstrip (c :: l) = c :: l :=
  dropWhile_cons_false _ c l h

theorem prstrip_append_ws (x t : PyStr) (ht : ∀ c ∈ t, isPySpace c = true) :
    prstrip (x ++ t) = prstrip x := by
  unfold prstrip
  rw [List.reverse_append,
    dropWhile_append_all _ _ _ (fun c hc => ht c (List.mem_reverse.mp hc))]

theorem prstrip_append_keep (x k : PyStr) (hk : prstrip k = k) (hne : k ≠ []) :
    prstrip (x ++ k) = x ++ k := by
  have hdw : k.reverse.dropWhile isPySpace = k.reverse := by
    have := congrArg List.reverse hk
    rw [prstrip, List.reverse_reverse] at this
    exact this
  obtain ⟨c, rest, hcr⟩ : ∃ c rest, k.reverse = c :: rest := by
    cases hrev : k.reverse with
    | nil =>
      exfalso
      have := congrArg List.reverse hrev
      rw [List.reverse_reverse] at this
      exact hne (by simpa using this)
    | cons c rest => exact ⟨c, rest, rfl⟩
  have hc : isPySpace c = false := by
    apply dropWhile_eq_self_head isPySpace c rest
    rw [← hcr, hdw, hcr]
  unfold prstrip
  rw [List.reverse_append, hcr, List.cons_append,
    dropWhile_cons_false _ _ _ hc, ← List.cons_append, ← hcr, List.reverse_append,
    List.reverse_reverse, List.reverse_reverse]

theorem pstrip_self_parts (x : PyStr) (h : pstrip x = x) :
    plstrip x = x ∧ prstrip x = x := by
  have hlen1 : (plstrip x).length ≤ x.length :=
    List.Sublist.length_le (List.dropWhile_sublist (l := x) (p := isPySpace))
  have hlen2 : (pstrip x).length ≤ (plstrip x).length := by
    unfold pstrip prstrip
    have := List.Sublist.length_le
      (List.dropWhile_sublist (l := (plstrip x).reverse) (p := isPySpace))
    simpa using this
  have hx : (plstrip x).length = x.length := by
    rw [h] at hlen2
    omega
  have hpl : plstrip x = x := dropWhile_length_eq isPySpace x hx
  refine ⟨hpl, ?_⟩
  rw [pstrip, hpl] at h
  exact h

theorem pstrip_cons_ws (c : Char) (l : PyStr) (h : isPySpace c = true) :
    pstrip (c :: l) = pstrip l := by
  unfold pstrip plstrip
  rw [List.dropWhile_cons, if_pos h]

theorem lstripHashSpace_hash_space (k : PyStr) (hk : k = [] ∨ ∃ c rest, k = c :: rest ∧ '#' < c) :
    lstripHashSpace ('#' :: ' ' :: k) = k := by
  unfold lstripHashSpace
  rw [List.dropWhile_cons, if_pos (by decide), List.dropWhile_cons, if_pos (by decide)]
  rcases hk with hk | ⟨c, rest, hk, hc⟩
  · subst hk; rfl
  · subst hk
    rw [List.dropWhile_cons, if_neg ?_]
    intro hcon
    simp at hcon
    rcases hcon with h1 | h1 <;> (subst h1; exact absurd hc (by decide))

theorem splitEq_shape (k w : PyStr) (hk : '=' ∉ k) (hw : '=' ∉ w) :
    splitEq (k ++ '=' :: w) = some (k, w) := by
  have hx : ∀ c ∈ k, (decide (c ≠ '=')) = true := by
    intro c hc
    simp only [decide_eq_true_eq, ne_eq]
    intro he
    exact hk (he ▸ hc)
  have h1 := takeWhile_append_stop (fun c => !decide (c = '=')) k '=' w
    (by intro c hc; simpa using hx c hc) (by decide)
  simp [splitEq, h1.1, h1.2, hw]

theorem dropWhile_eq_nil_of_all (p : Char → Bool) (t : PyStr) (ht : ∀ c ∈ t, p c = true) :
    t.dropWhile p = [] := by
  induction t with
  | nil => rfl
  | cons c cs ih =>
    rw [List.dropWhile_cons, if_pos (ht c (by simp))]
    exact ih (fun d hd => ht d (by simp [hd]))

/-- Well-formedness of a package key as `make_packages_section` writes it:
non-empty, first character above `'#'` (so neither whitespace nor a
comment marker), whitespace-trimmed, and free of `'='` and newlines. -/
def goodKeyB (k : PyStr) : Bool :=
  match k with
  | [] => false
  | c :: _ => decide ('#' < c) && (pstrip k == k) && decide ('=' ∉ k) && decide ('\n' ∉ k)

/-- Well-formedness of a resolver-id value: whitespace-trimmed and free of
`'='` and newlines (the empty value is allowed, as in the source). -/
def goodValB (x : PyStr) : Bool :=
  (pstrip x == x) && decide ('=' ∉ x) && decide ('\n' ∉ x)

theorem goodKeyB_spec (k : PyStr) (h : goodKeyB k = true) :
    k ≠ [] ∧ (∃ c rest, k = c :: rest ∧ '#' < c) ∧ plstrip k = k ∧ prstrip k = k ∧
      pstrip k = k ∧ '=' ∉ k ∧ '\n' ∉ k ∧ startsWithHash k = false := by
  cases k with
  | nil => simp [goodKeyB] at h
  | cons c rest =>
    simp only [goodKeyB, Bool.and_eq_true, decide_eq_true_eq, beq_iff_eq] at h
    obtain ⟨⟨⟨hc, hps⟩, heq⟩, hnl⟩ := h
    have hcw : isPySpace c = false := isPySpace_false_of_hash_lt c hc
    have hpl : plstrip (c :: rest) = c :: rest := plstrip_cons_keep c rest hcw
    have hpr : prstrip (c :: rest) = c :: rest := by
      have : pstrip (c :: rest) = prstrip (c :: rest) := by
        unfold pstrip
        rw [hpl]
      rw [← this, hps]
    refine ⟨by simp, ⟨c, rest, rfl, hc⟩, hpl, hpr, hps, heq, hnl, ?_⟩
    simp only [startsWithHash, decide_eq_false_iff_not]
    intro hcon
    subst hcon
    exact absurd hc (by decide)

theorem goodValB_spec (x : PyStr) (h : goodValB x = true) :
    plstrip x = x ∧ prstrip x = x ∧ '=' ∉ x ∧ '\n' ∉ x := by
  simp only [goodValB, Bool.and_eq_true, decide_eq_true_eq, beq_iff_eq] at h
  obtain ⟨⟨hps, heq⟩, hnl⟩ := h
  obtain ⟨h1, h2⟩ := pstrip_self_parts x hps
  exact ⟨h1, h2, heq, hnl⟩

theorem pstrip_append_space (c : Char) (rest : PyStr)
    (hc : isPySpace c = false) (hr : prstrip (c :: rest) = c :: rest) :
    pstrip ((c :: rest) ++ [' ']) = c :: rest := by
  unfold pstrip
  rw [List.cons_append, plstrip_cons_keep _ _ hc, ← List.cons_append,
    prstrip_append_ws _ [' '] (by intro d hd; simp at hd; subst hd; rfl)]
  exact hr

theorem pstrip_space_val (v t : PyStr) (hv : goodValB v = true)
    (ht : ∀ c ∈ t, isPySpace c = true) : pstrip (' ' :: (v ++ t)) = v := by
  rw [pstrip_cons_ws ' ' (v ++ t) (by rfl)]
  obtain ⟨hvl, hvr, hveq, hvnl⟩ := goodValB_spec v hv
  cases hvv : v with
  | nil =>
    show pstrip t = []
    unfold pstrip plstrip
    rw [dropWhile_eq_nil_of_all isPySpace t ht]
    rfl
  | cons c' r' =>
    have hc' : isPySpace c' = false := by
      apply dropWhile_eq_self_head isPySpace c' r'
      rw [← hvv]
      exact hvl
    unfold pstrip
    rw [List.cons_append, plstrip_cons_keep c' (r' ++ t) hc']
    have hvt : c' :: (r' ++ t) = v ++ t := by rw [hvv]; rfl
    rw [hvt, prstrip_append_ws v t ht, hvr, hvv]

/-- The key name a `[Packages]`-section line would be filed under by the
reconciliation loop: the stripped key, uncommented when it is a commented
entry (`src/vb.py:305-311`). -/
def parsedName (l : PyStr) : Option PyStr :=
  match splitEq l with
  | none => none
  | some (k0, _) =>
    if startsWithHash (pstrip k0) then some (lstripHashSpace (pstrip k0))
    else some (pstrip k0)

theorem commentLine_parse (k v t : PyStr) (hk : goodKeyB k = true) (hv : goodValB v = true)
    (ht : ∀ c ∈ t, isPySpace c = true) (hte : '=' ∉ t) :
    splitEq (lineInactive k v ++ t) = some (('#' :: ' ' :: k) ++ [' '], ' ' :: (v ++ t)) ∧
    pstrip (('#' :: ' ' :: k) ++ [' ']) = '#' :: ' ' :: k ∧
    pstrip (' ' :: (v ++ t)) = v ∧
    startsWithHash ('#' :: ' ' :: k) = true ∧
    lstripHashSpace ('#' :: ' ' :: k) = k := by
  obtain ⟨hne, ⟨c, rest, hcr, hc⟩, hpl, hpr, hps, heq, hnl, hsh⟩ := goodKeyB_spec k hk
  obtain ⟨hvl, hvr, hveq, hvnl⟩ := goodValB_spec v hv
  refine ⟨?_, ?_, pstrip_space_val v t hv ht, rfl, ?_⟩
  · have hdec : lineInactive k v ++ t = (('#' :: ' ' :: k) ++ [' ']) ++ '=' :: (' ' :: (v ++ t)) := by
      simp [lineInactive, pys, List.append_assoc]
    rw [hdec]
    apply splitEq_shape
    · intro hmem
      simp only [List.mem_append, List.mem_cons, List.mem_singleton,
        List.not_mem_nil] at hmem
      rcases hmem with (h1 | h1 | h1) | h1
      · exact absurd h1 (by decide)
      · exact absurd h1 (by decide)
      · exact heq h1
      · exact absurd h1 (by decide)
    · intro hmem
      simp only [List.mem_cons, List.mem_append] at hmem
      rcases hmem with h1 | h1 | h1
      · exact absurd h1 (by decide)
      · exact hveq h1
      · exact hte h1
  · apply pstrip_append_space '#' (' ' :: k) (by decide)
    exact prstrip_append_keep ['#', ' '] k hpr hne
  · exact lstripHashSpace_hash_space k (Or.inr ⟨c, rest, hcr, hc⟩)

theorem activeLine_parse (k v t : PyStr) (hk : goodKeyB k = true) (hv : goodValB v = true)
    (ht : ∀ c ∈ t, isPySpace c = true) (hte : '=' ∉ t) :
    splitEq (lineActive k v ++ t) = some (k ++ [' '], ' ' :: (v ++ t)) ∧
    pstrip (k ++ [' ']) = k ∧
    pstrip (' ' :: (v ++ t)) = v ∧
    startsWithHash k = false := by
  obtain ⟨hne, ⟨c, rest, hcr, hc⟩, hpl, hpr, hps, heq, hnl, hsh⟩ := goodKeyB_spec k hk
  obtain ⟨hvl, hvr, hveq, hvnl⟩ := goodValB_spec v hv
  refine ⟨?_, ?_, pstrip_space_val v t hv ht, hsh⟩
  · have hdec : lineActive k v ++ t = (k ++ [' ']) ++ '=' :: (' ' :: (v ++ t)) := by
      simp [lineActive, pys, List.append_assoc]
    rw [hdec]
    apply splitEq_shape
    · intro hmem
      simp only [List.mem_append, List.mem_singleton] at hmem
      rcases hmem with h1 | h1
      · exact heq h1
      · exact absurd h1 (by decide)
    · intro hmem
      simp only [List.mem_cons, List.mem_append] at hmem
      rcases hmem with h1 | h1 | h1
      · exact absurd h1 (by decide)
      · exact hveq h1
      · exact hte h1
  · subst hcr
    exact pstrip_append_space c rest (isPySpace_false_of_hash_lt c hc) hpr

theorem updatePackagesLine_comment_line (p : Table) (k v t : PyStr)
    (hk : goodKeyB k = true) (hv : goodValB v = true)
    (ht : ∀ c ∈ t, isPySpace c = true) (hte : '=' ∉ t) :
    updatePackagesLine p (lineInactive k v ++ t) =
      if (tlookup p k).isSome then tinsert p k v else tinsert p ('#' :: ' ' :: k) v := by
  obtain ⟨hsp, hkey, hval, hh, hls⟩ := commentLine_parse k v t hk hv ht hte
  simp only [updatePackagesLine, hsp, hkey, hval, hh, hls, if_true]

theorem updatePackagesLine_active_line (p : Table) (k v t : PyStr)
    (hk : goodKeyB k = true) (hv : goodValB v = true)
    (ht : ∀ c ∈ t, isPySpace c = true) (hte : '=' ∉ t) :
    updatePackagesLine p (lineActive k v ++ t) = tinsert p k v := by
  obtain ⟨hsp, hkey, hval, hh⟩ := activeLine_parse k v t hk hv ht hte
  simp only [updatePackagesLine, hsp, hkey, hval, hh, Bool.false_eq_true, if_false]

theorem parsedName_comment (k v t : PyStr) (hk : goodKeyB k = true) (hv : goodValB v = true)
    (ht : ∀ c ∈ t, isPySpace c = true) (hte : '=' ∉ t) :
    parsedName (lineInactive k v ++ t) = some k := by
  obtain ⟨hsp, hkey, hval, hh, hls⟩ := commentLine_parse k v t hk hv ht hte
  simp only [parsedName, hsp, hkey, hval, hh, hls, if_true]

theorem parsedName_active (k v t : PyStr) (hk : goodKeyB k = true) (hv : goodValB v = true)
    (ht : ∀ c ∈ t, isPySpace c = true) (hte : '=' ∉ t) :
    parsedName (lineActive k v ++ t) = some k := by
  obtain ⟨hsp, hkey, hval, hh⟩ := activeLine_parse k v t hk hv ht hte
  simp only [parsedName, hsp, hkey, hval, hh, Bool.false_eq_true, if_false]

/-! ## Order and sorted-set lemmas for `make_packages_section` -/

theorem ltS_irrefl (x : PyStr) : ltS x x = false := by
  induction x with
  | nil => rfl
  | cons a as ih => simp [ltS, lt_irrefl, ih]

theorem ltS_connex (x : PyStr) : ∀ y, ltS x y = false → ltS y x = false → x = y := by
  induction x with
  | nil =>
    intro y h h2
    cases y with
    | nil => rfl
    | cons b bs => simp [ltS] at h
  | cons a as ih =>
    intro y h h2
    cases y with
    | nil => simp [ltS] at h2
    | cons b bs =>
      rcases lt_trichotomy a b with hab | hab | hab
      · simp [ltS, hab] at h
      · subst hab
        simp only [ltS, lt_irrefl, if_false] at h h2
        rw [ih bs h h2]
      · simp [ltS, hab] at h2

theorem mem_insertSD (x y : PyStr) (l : List PyStr) :
    x ∈ insertSD y l ↔ x = y ∨ x ∈ l := by
  induction l with
  | nil => simp [insertSD]
  | cons z zs ih =>
    unfold insertSD
    by_cases h1 : ltS y z = true
    · rw [if_pos h1]
      simp [or_assoc]
    · rw [if_neg h1]
      by_cases h2 : ltS z y = true
      · rw [if_pos h2]
        simp only [List.mem_cons, ih]
        constructor
        · rintro (h | h | h)
          · exact Or.inr (Or.inl h)
          · exact Or.inl h
          · exact Or.inr (Or.inr h)
        · rintro (h | h | h)
          · exact Or.inr (Or.inl h)
          · exact Or.inl h
          · exact Or.inr (Or.inr h)
      · rw [if_neg h2]
        have hyz : y = z :=
          ltS_connex y z (by simpa using h1) (by simpa using h2)
        subst hyz
        simp only [List.mem_cons]
        constructor
        · rintro (h | h)
          · exact Or.inl h
          · exact Or.inr (Or.inr h)
        · rintro (h | h | h)
          · exact Or.inl h
          · exact Or.inl h
          · exact Or.inr h

theorem mem_sortSD (x : PyStr) (l : List PyStr) : x ∈ sortSD l ↔ x ∈ l := by
  induction l with
  | nil => simp [sortSD]
  | cons a as ih =>
    rw [show sortSD (a :: as) = insertSD a (sortSD as) from rfl, mem_insertSD, ih,
      List.mem_cons]

theorem ltS_trans (x : PyStr) : ∀ y z, ltS x y = true → ltS y z = true → ltS x z = true := by
  induction x with
  | nil =>
    intro y z h1 h2
    cases y with
    | nil => exact absurd h1 (by simp [ltS])
    | cons b bs =>
      cases z with
      | nil => exact absurd h2 (by simp [ltS])
      | cons c cs => simp [ltS]
  | cons a as ih =>
    intro y z h1 h2
    cases y with
    | nil => exact absurd h1 (by simp [ltS])
    | cons b bs =>
      cases z with
      | nil => exact absurd h2 (by simp [ltS])
      | cons c cs =>
        simp only [ltS] at h1 h2 ⊢
        rcases lt_trichotomy a b with hab | hab | hab
        · rcases lt_trichotomy b c with hbc | hbc | hbc
          · simp [lt_trans hab hbc]
          · subst hbc; simp [hab]
          · rw [if_neg (lt_asymm hbc), if_pos hbc] at h2
            exact absurd h2 (by simp)
        · subst hab
          rcases lt_trichotomy a c with hac | hac | hac
          · simp [hac]
          · subst hac
            rw [if_neg (lt_irrefl a), if_neg (lt_irrefl a)] at h1 h2 ⊢
            exact ih bs cs h1 h2
          · rw [if_neg (lt_asymm hac), if_pos hac] at h2
            exact absurd h2 (by simp)
        · rw [if_neg (lt_asymm hab), if_pos hab] at h1
          exact absurd h1 (by simp)

theorem ltS_asymm (x y : PyStr) (h : ltS x y = true) : ltS y x = false := by
  cases hyx : ltS y x with
  | false => rfl
  | true =>
    have := ltS_trans x y x h hyx
    rw [ltS_irrefl] at this
    exact absurd this (by simp)

/-- Strictly-increasing chains in Python string order. -/
def SChain (l : List PyStr) : Prop := List.Chain' (fun a b => ltS a b = true) l

theorem schain_insertSD (x : PyStr) (l : List PyStr) (h : SChain l) :
    SChain (insertSD x l) := by
  induction l with
  | nil => simp [insertSD, SChain]
  | cons y ys ih =>
    unfold insertSD
    by_cases h1 : ltS x y = true
    · rw [if_pos h1]
      exact List.chain'_cons.mpr ⟨h1, h⟩
    · rw [if_neg h1]
      obtain ⟨hh, ht⟩ := List.chain'_cons'.mp h
      by_cases h2 : ltS y x = true
      · rw [if_pos h2]
        apply List.chain'_cons'.mpr
        refine ⟨?_, ih ht⟩
        intro b hb
        cases ys with
        | nil =>
          simp [insertSD] at hb
          rw [← hb]
          exact h2
        | cons z zs =>
          unfold insertSD at hb
          by_cases h3 : ltS x z = true
          · rw [if_pos h3] at hb
            simp at hb
            rw [← hb]
            exact h2
          · rw [if_neg h3] at hb
            by_cases h4 : ltS z x = true
            · rw [if_pos h4] at hb
              simp at hb
              rw [← hb]
              exact hh z (by simp)
            · rw [if_neg h4] at hb
              simp at hb
              rw [← hb]
              exact hh z (by simp)
      · rw [if_neg h2]
        exact h

theorem sortSD_schain (l : List PyStr) : SChain (sortSD l) := by
  induction l with
  | nil => simp [sortSD, SChain]
  | cons a as ih => exact schain_insertSD a (sortSD as) ih

theorem schain_lt_of_mem (a : PyStr) (l : List PyStr) (h : SChain (a :: l)) :
    ∀ x ∈ l, ltS a x = true := by
  induction l generalizing a with
  | nil => intro x hx; simp at hx
  | cons y ys ih =>
    intro x hx
    obtain ⟨hay, hrest⟩ := List.chain'_cons.mp h
    rcases List.mem_cons.mp hx with hx | hx
    · rw [hx]; exact hay
    · exact ltS_trans a y x hay (ih y hrest x hx)

theorem schain_canonical : ∀ (l m : List PyStr), SChain l → SChain m →
    (∀ x, x ∈ l ↔ x ∈ m) → l = m := by
  intro l
  induction l with
  | nil =>
    intro m _ _ hmem
    cases m with
    | nil => rfl
    | cons b bs =>
      exact absurd ((hmem b).mpr (by simp)) (by simp)
  | cons a l' ih =>
    intro m hl hm hmem
    cases m with
    | nil => exact absurd ((hmem a).mp (by simp)) (by simp)
    | cons b m' =>
      have hab : a = b := by
        rcases List.mem_cons.mp ((hmem a).mp (by simp)) with h | h
        · exact h
        · rcases List.mem_cons.mp ((hmem b).mpr (by simp)) with h2 | h2
          · exact h2.symm
          · exfalso
            have h3 := schain_lt_of_mem b m' hm a h
            have h4 := schain_lt_of_mem a l' hl b h2
            have := ltS_trans a b a h4 h3
            rw [ltS_irrefl] at this
            exact absurd this (by simp)
      subst hab
      have hmem' : ∀ x, x ∈ l' ↔ x ∈ m' := by
        intro x
        constructor
        · intro hx
          have hax := schain_lt_of_mem a l' hl x hx
          rcases List.mem_cons.mp ((hmem x).mp (List.mem_cons_of_mem a hx)) with h | h
          · exfalso
            rw [h, ltS_irrefl] at hax
            exact absurd hax (by simp)
          · exact h
        · intro hx
          have hax := schain_lt_of_mem a m' hm x hx
          rcases List.mem_cons.mp ((hmem x).mpr (List.mem_cons_of_mem a hx)) with h | h
          · exfalso
            rw [h, ltS_irrefl] at hax
            exact absurd hax (by simp)
          · exact h
      rw [ih m' (List.chain'_cons'.mp hl).2 (List.chain'_cons'.mp hm).2 hmem']

theorem schain_split (P Q : PyStr → Prop) (L : List PyStr) (hchain : SChain L)
    (hPQ : ∀ x ∈ L, P x ∨ Q x) (horder : ∀ x y, P x → Q y → ltS x y = true) :
    ∃ A B, L = A ++ B ∧ (∀ x ∈ A, P x) ∧ (∀ x ∈ B, Q x) := by
  induction L with
  | nil => exact ⟨[], [], rfl, by simp, by simp⟩
  | cons a L' ih =>
    obtain ⟨A', B', hsplit, hPA, hQB⟩ := ih (List.chain'_cons'.mp hchain).2
      (fun x hx => hPQ x (by simp [hx]))
    rcases hPQ a (by simp) with hPa | hQa
    · exact ⟨a :: A', B', by rw [hsplit, List.cons_append],
        by intro x hx; rcases List.mem_cons.mp hx with h | h;
           exact h ▸ hPa; exact hPA x h, hQB⟩
    · refine ⟨[], a :: L', by simp, by simp, ?_⟩
      intro x hx
      rcases List.mem_cons.mp hx with h | h
      · exact h ▸ hQa
      · rcases hPQ x (by simp [h]) with hPx | hQx
        · exfalso
          have h1 := schain_lt_of_mem a L' hchain x h
          have h2 := horder x a hPx hQa
          have := ltS_trans a x a h1 h2
          rw [ltS_irrefl] at this
          exact absurd this (by simp)
        · exact hQx

/-! ## Lemmas about `readlines`, `joinAll` and `splitHeader` -/

theorem joinAll_readlines (c : PyStr) : joinAll (readlines c) = c := by
  induction c with
  | nil => rfl
  | cons a rest ih =>
    unfold readlines
    by_cases ha : a = '\n'
    · rw [if_pos ha, ha]
      show '\n' :: joinAll (readlines rest) = '\n' :: rest
      rw [ih]
    · rw [if_neg ha]
      cases hr : readlines rest with
      | nil =>
        have : rest = [] := by
          have := joinAll_readlines_aux (hr ▸ ih)
          exact this
        rw [this]
        rfl
      | cons l ls =>
        show (a :: l) ++ joinAll ls = a :: rest
        have : l ++ joinAll ls = rest := by
          have h2 : joinAll (l :: ls) = rest := hr ▸ ih
          exact h2
        rw [List.cons_append, this]
where joinAll_readlines_aux {rest : PyStr} (h : joinAll [] = rest) : rest = [] := h.symm

/-- A line as produced inside a readlines result: its newline, if any, is
the final character. -/
def lineTerm (l : PyStr) : Prop := ∃ x, '\n' ∉ x ∧ l = x ++ ['\n']

theorem readlines_cons_line (x : PyStr) (hx : '\n' ∉ x) (y : PyStr) :
    readlines (x ++ '\n' :: y) = (x ++ ['\n']) :: readlines y := by
  induction x with
  | nil => simp [readlines]
  | cons a as ih =>
    have ha : a ≠ '\n' := by
      intro h
      exact hx (by simp [h])
    have ih' := ih (fun h => hx (by simp [h]))
    show readlines (a :: (as ++ '\n' :: y)) = ((a :: as) ++ ['\n']) :: readlines y
    conv_lhs => rw [readlines]
    rw [if_neg ha, ih']
    rfl

theorem readlines_append_terminated (P : List PyStr)
    (hP : ∀ l ∈ P, lineTerm l) (y : PyStr) :
    readlines (joinAll P ++ y) = P ++ readlines y := by
  induction P with
  | nil => simp [joinAll]
  | cons l ls ih =>
    obtain ⟨x, hx, hlx⟩ := hP l (by simp)
    have ih' := ih (fun l' hl' => hP l' (by simp [hl']))
    show readlines ((l ++ joinAll ls) ++ y) = l :: (ls ++ readlines y)
    rw [hlx]
    have : ((x ++ ['\n']) ++ joinAll ls) ++ y = x ++ '\n' :: (joinAll ls ++ y) := by
      simp [List.append_assoc]
    rw [this, readlines_cons_line x hx (joinAll ls ++ y), ih']

theorem readlines_terms (c : PyStr) (P : List PyStr) (h : PyStr) (Q : List PyStr)
    (hdec : readlines c = P ++ h :: Q) : ∀ l ∈ P, lineTerm l := by
  induction c generalizing P with
  | nil =>
    intro l hl
    simp [readlines] at hdec
  | cons a rest ih =>
    intro l hl
    rw [readlines] at hdec
    by_cases ha : a = '\n'
    · rw [if_pos ha] at hdec
      cases P with
      | nil => simp at hl
      | cons p ps =>
        rw [List.cons_append] at hdec
        injection hdec with hp htl
        rcases List.mem_cons.mp hl with hl | hl
        · rw [hl, ← hp]
          exact ⟨[], by simp, rfl⟩
        · exact ih ps htl l hl
    · rw [if_neg ha] at hdec
      cases hr : readlines rest with
      | nil =>
        rw [hr] at hdec
        cases P with
        | nil => simp at hl
        | cons p ps =>
          rw [List.cons_append] at hdec
          injection hdec with hp htl
          exact absurd htl.symm (by simp)
      | cons m ms =>
        rw [hr] at hdec
        cases P with
        | nil => simp at hl
        | cons p ps =>
          rw [List.cons_append] at hdec
          injection hdec with hp htl
          rcases List.mem_cons.mp hl with hl | hl
          · have hm : lineTerm m := by
              have hrr : readlines rest = (m :: ps) ++ h :: Q := by
                rw [hr, htl]
                rfl
              exact ih (m :: ps) hrr m (by simp)
            obtain ⟨x, hxn, hxe⟩ := hm
            refine ⟨a :: x, ?_, ?_⟩
            · intro hc
              rcases List.mem_cons.mp hc with hc | hc
              · exact ha hc.symm
              · exact hxn hc
            · rw [hl, ← hp, hxe]
              rfl
          · exact ih (m :: ps) (by rw [hr, htl]; rfl) l (List.mem_cons_of_mem m hl)

theorem splitHeader_decomp (L : List PyStr) (hf : (splitHeader L).2.1 = true) :
    ∃ hdr, isPackagesHeader hdr = true ∧
      L = (splitHeader L).1 ++ hdr :: (splitHeader L).2.2 ∧
      ∀ l ∈ (splitHeader L).1, isPackagesHeader l = false := by
  induction L with
  | nil => simp [splitHeader] at hf
  | cons l ls ih =>
    by_cases hl : isPackagesHeader l = true
    · refine ⟨l, hl, ?_, ?_⟩
      · simp [splitHeader, hl]
      · simp [splitHeader, hl]
    · have hsh : splitHeader (l :: ls) =
          (l :: (splitHeader ls).1, (splitHeader ls).2.1, (splitHeader ls).2.2) := by
        simp [splitHeader, hl]
      rw [hsh] at hf ⊢
      obtain ⟨hdr, h1, h2, h3⟩ := ih hf
      refine ⟨hdr, h1, ?_, ?_⟩
      · show l :: ls = (l :: (splitHeader ls).1) ++ hdr :: (splitHeader ls).2.2
        rw [List.cons_append, ← h2]
      · intro l' hl'
        rcases List.mem_cons.mp hl' with h | h
        · rw [h]
          simpa using hl
        · exact h3 l' h

theorem splitHeader_of_shape (P : List PyStr) (hdr : PyStr) (B : List PyStr)
    (hP : ∀ l ∈ P, isPackagesHeader l = false) (hh : isPackagesHeader hdr = true) :
    splitHeader (P ++ hdr :: B) = (P, true, B) := by
  induction P with
  | nil => simp [splitHeader, hh]
  | cons l ls ih =>
    have hl : isPackagesHeader l = false := hP l (by simp)
    rw [List.cons_append]
    show splitHeader (l :: (ls ++ hdr :: B)) = (l :: ls, true, B)
    simp [splitHeader, hl, ih (fun l' hl' => hP l' (by simp [hl']))]

theorem intercalate_cons_two (sep a b : PyStr) (t : List PyStr) :
    List.intercalate sep (a :: b :: t) = a ++ sep ++ List.intercalate sep (b :: t) := by
  simp [List.intercalate, List.intersperse_cons₂, List.append_assoc]

theorem intercalate_newline (L : List PyStr) (hL : L ≠ []) :
    List.intercalate (pys "\n") L ++ pys "\n" =
      joinAll (L.map (fun l => l ++ ['\n'])) := by
  induction L with
  | nil => exact absurd rfl hL
  | cons l ls ih =>
    cases ls with
    | nil => simp [List.intercalate, joinAll, pys]
    | cons m ms =>
      have ih' := ih (by simp)
      rw [List.map_cons]
      show List.intercalate (pys "\n") (l :: m :: ms) ++ pys "\n" =
        (l ++ ['\n']) ++ joinAll ((m :: ms).map (fun l => l ++ ['\n']))
      rw [← ih']
      rw [intercalate_cons_two]
      simp [pys, List.append_assoc]

/-! ## Machinery for the idempotence analysis of `maybe_update_ini`

The second merge run re-reads the section that `make_packages_section`
generated.  We reify the effect of each generated line as a
key/value *write* and characterise the fold of `updatePackagesLine`
as a fold of `tinsert` writes. -/

/-- The write a well-formed generated section line performs: the stripped
key as spelled on the line (commented keys keep their `'# '` prefix) and
the stripped value. -/
def wline (l : PyStr) : PyStr × PyStr :=
  match splitEq (l ++ ['\n']) with
  | none => ([], [])
  | some (a, b) => (pstrip a, pstrip b)

/-- Folding plain dict assignments `d[k] = v` over a list of writes. -/
def writeFold (T : Table) (ws : List (PyStr × PyStr)) : Table :=
  ws.foldl (fun t e => tinsert t e.1 e.2) T

/-- The value of the last write to a key in a write list, if any. -/
def lastVal : List (PyStr × PyStr) → PyStr → Option PyStr
  | [], _ => none
  | e :: r, q =>
    match lastVal r q with
    | some v => some v
    | none => if e.1 = q then some e.2 else none

theorem writeFold_cons (T : Table) (e : PyStr × PyStr) (ws : List (PyStr × PyStr)) :
    writeFold T (e :: ws) = writeFold (tinsert T e.1 e.2) ws := rfl

theorem writeFold_append (T : Table) (a b : List (PyStr × PyStr)) :
    writeFold T (a ++ b) = writeFold (writeFold T a) b := by
  simp [writeFold, List.foldl_append]

theorem tlookup_writeFold (ws : List (PyStr × PyStr)) (T : Table) (q : PyStr) :
    tlookup (writeFold T ws) q =
      match lastVal ws q with
      | some v => some v
      | none => tlookup T q := by
  induction ws generalizing T with
  | nil => rfl
  | cons e r ih =>
    rw [writeFold_cons, ih]
    cases h : lastVal r q with
    | some v => simp [lastVal, h]
    | none =>
      simp only [lastVal, h, tlookup_tinsert]
      by_cases he : e.1 = q <;> simp [he]

theorem lastVal_append (a b : List (PyStr × PyStr)) (q : PyStr) :
    lastVal (a ++ b) q =
      match lastVal b q with
      | some v => some v
      | none => lastVal a q := by
  induction a with
  | nil =>
    cases h : lastVal b q <;> simp [lastVal, h]
  | cons e r ih =>
    have hstep : lastVal ((e :: r) ++ b) q =
        match lastVal (r ++ b) q with
        | some v => some v
        | none => if e.1 = q then some e.2 else none := rfl
    rw [hstep, ih]
    cases h : lastVal b q with
    | some v => rfl
    | none =>
      cases h2 : lastVal r q <;> simp [lastVal, h2]

theorem lastVal_eq_none (ws : List (PyStr × PyStr)) (q : PyStr)
    (h : ∀ w ∈ ws, w.1 ≠ q) : lastVal ws q = none := by
  induction ws with
  | nil => rfl
  | cons e r ih =>
    have h1 : e.1 ≠ q := h e (by simp)
    have h2 := ih (fun w hw => h w (by simp [hw]))
    simp [lastVal, h2, h1]

theorem lastVal_mem (ws : List (PyStr × PyStr)) (q v : PyStr)
    (h : lastVal ws q = some v) : (q, v) ∈ ws := by
  induction ws with
  | nil => simp [lastVal] at h
  | cons e r ih =>
    cases hr : lastVal r q with
    | some v2 =>
      simp only [lastVal, hr] at h
      injection h with h
      subst h
      exact List.mem_cons_of_mem e (ih hr)
    | none =>
      simp only [lastVal, hr] at h
      by_cases he : e.1 = q
      · rw [if_pos he] at h
        injection h with h
        have : e = (q, v) := by
          obtain ⟨k1, v1⟩ := e
          simp only at he h
          rw [he, h]
        rw [← this]
        exact List.mem_cons_self e r
      · rw [if_neg he] at h
        exact absurd h (by simp)

theorem lastVal_isSome_of_mem (ws : List (PyStr × PyStr)) (q : PyStr)
    (w : PyStr × PyStr) (hw : w ∈ ws) (hq : w.1 = q) :
    (lastVal ws q).isSome = true := by
  induction ws with
  | nil => simp at hw
  | cons e r ih =>
    cases hr : lastVal r q with
    | some v2 => simp [lastVal, hr]
    | none =>
      rcases List.mem_cons.mp hw with h1 | h1
      · subst h1
        simp [lastVal, hr, hq]
      · have := ih h1
        rw [hr] at this
        simp at this

theorem lastVal_eq_some (ws : List (PyStr × PyStr)) (q v : PyStr)
    (hex : ∃ w ∈ ws, w.1 = q) (huni : ∀ w ∈ ws, w.1 = q → w.2 = v) :
    lastVal ws q = some v := by
  induction ws with
  | nil =>
    obtain ⟨w, hw, _⟩ := hex
    simp at hw
  | cons e r ih =>
    cases hr : lastVal r q with
    | some v2 =>
      have hm : (q, v2) ∈ r := lastVal_mem r q v2 hr
      have hv2 : v2 = v := huni (q, v2) (List.mem_cons_of_mem e hm) rfl
      simp [lastVal, hr, hv2]
    | none =>
      obtain ⟨w, hw, hwq⟩ := hex
      rcases List.mem_cons.mp hw with h1 | h1
      · subst h1
        have hv : w.2 = v := huni w (List.mem_cons_self w r) hwq
        simp [lastVal, hr, hwq, hv]
      · have := lastVal_isSome_of_mem r q w h1 hwq
        rw [hr] at this
        simp at this

theorem mem_tkeys_tinsert (t : Table) (k v q : PyStr) :
    q ∈ tkeys (tinsert t k v) ↔ q = k ∨ q ∈ tkeys t := by
  rw [mem_tkeys_iff_isSome, tlookup_tinsert, mem_tkeys_iff_isSome]
  by_cases h : k = q
  · subst h
    simp
  · have : ¬ q = k := fun hh => h hh.symm
    simp [h, this]

theorem nodup_tinsert (t : Table) (k v : PyStr) (h : (tkeys t).Nodup) :
    (tkeys (tinsert t k v)).Nodup := by
  induction t with
  | nil => simp [tinsert, tkeys]
  | cons e r ih =>
    obtain ⟨k1, v1⟩ := e
    have hk : tkeys ((k1, v1) :: r) = k1 :: tkeys r := rfl
    rw [hk, List.nodup_cons] at h
    by_cases hkk : k1 = k
    · subst hkk
      have hins : tinsert ((k1, v1) :: r) k1 v = (k1, v) :: r := by
        simp [tinsert]
      rw [hins]
      have hk2 : tkeys ((k1, v) :: r) = k1 :: tkeys r := rfl
      rw [hk2, List.nodup_cons]
      exact h
    · simp only [tinsert, if_neg hkk]
      have hk2 : tkeys ((k1, v1) :: tinsert r k v) = k1 :: tkeys (tinsert r k v) := rfl
      rw [hk2, List.nodup_cons]
      refine ⟨?_, ih h.2⟩
      intro hc
      rcases (mem_tkeys_tinsert r k v k1).mp hc with h1 | h1
      · exact hkk h1
      · exact h.1 h1

theorem nodup_writeFold (ws : List (PyStr × PyStr)) (T : Table)
    (h : (tkeys T).Nodup) : (tkeys (writeFold T ws)).Nodup := by
  induction ws generalizing T with
  | nil => exact h
  | cons e r ih => exact ih (tinsert T e.1 e.2) (nodup_tinsert T e.1 e.2 h)

theorem tlookup_of_mem_nodup (t : Table) (e : PyStr × PyStr)
    (hnd : (tkeys t).Nodup) (he : e ∈ t) : tlookup t e.1 = some e.2 := by
  induction t with
  | nil => simp at he
  | cons a r ih =>
    obtain ⟨k1, v1⟩ := a
    have hk : tkeys ((k1, v1) :: r) = k1 :: tkeys r := rfl
    rw [hk, List.nodup_cons] at hnd
    rcases List.mem_cons.mp he with h1 | h1
    · subst h1
      exact tlookup_cons_self k1 v1 r
    · have hmem : e.1 ∈ tkeys r := List.mem_map_of_mem Prod.fst h1
      have hne : k1 ≠ e.1 := fun hh => hnd.1 (hh ▸ hmem)
      rw [tlookup_cons_ne k1 v1 r e.1 hne]
      exact ih hnd.2 h1

theorem val_unique_nodup (t : Table) (k v v2 : PyStr) (hnd : (tkeys t).Nodup)
    (h1 : (k, v) ∈ t) (h2 : (k, v2) ∈ t) : v = v2 := by
  have e1 := tlookup_of_mem_nodup t (k, v) hnd h1
  have e2 := tlookup_of_mem_nodup t (k, v2) hnd h2
  rw [e1] at e2
  exact Option.some.inj e2

theorem exists_val_of_mem_tkeys (t : Table) (k : PyStr) (h : k ∈ tkeys t) :
    ∃ v, (k, v) ∈ t := by
  rw [mem_tkeys_iff_isSome] at h
  cases hl : tlookup t k with
  | none => rw [hl] at h; simp at h
  | some v => exact ⟨v, mem_of_tlookup_eq_some t k v hl⟩

theorem mergeBody_append (T : Table) (a b : List PyStr) :
    mergeBody T (a ++ b) = mergeBody (mergeBody T a) b := by
  simp [mergeBody, List.foldl_append]

theorem mergeBody_cons (T : Table) (l : PyStr) (ls : List PyStr) :
    mergeBody T (l :: ls) = mergeBody (updatePackagesLine T l) ls := rfl

theorem wline_active (k v : PyStr) (hk : goodKeyB k = true) (hv : goodValB v = true) :
    wline (lineActive k v) = (k, v) := by
  obtain ⟨hsp, hkey, hval, _⟩ := activeLine_parse k v ['\n'] hk hv
    (by intro c hc; simp at hc; subst hc; rfl) (by decide)
  simp only [wline, hsp]
  rw [hkey, hval]

theorem wline_comment (n v : PyStr) (hn : goodKeyB n = true) (hv : goodValB v = true) :
    wline (lineInactive n v) = ('#' :: ' ' :: n, v) := by
  obtain ⟨hsp, hkey, hval, _, _⟩ := commentLine_parse n v ['\n'] hn hv
    (by intro c hc; simp at hc; subst hc; rfl) (by decide)
  simp only [wline, hsp]
  rw [hkey, hval]

theorem lineInactive_cons (n v : PyStr) :
    lineInactive n v = '#' :: (' ' :: (n ++ pys " = " ++ v)) := rfl

theorem lineActive_cons (c : Char) (rest v : PyStr) :
    lineActive (c :: rest) v = c :: (rest ++ pys " = " ++ v) := rfl

theorem lineActive_hash_spelling (n v : PyStr) :
    lineActive ('#' :: ' ' :: n) v = lineInactive n v := rfl

theorem startsWithHash_lineInactive (n v : PyStr) :
    startsWithHash (lineInactive n v) = true := by
  rw [lineInactive_cons]
  rfl

theorem startsWithHash_lineActive (k v : PyStr) (hk : goodKeyB k = true) :
    startsWithHash (lineActive k v) = false := by
  obtain ⟨_, ⟨c, rest, hcr, hc⟩, _⟩ := goodKeyB_spec k hk
  subst hcr
  rw [lineActive_cons]
  have hne : ¬ c = '#' := by
    intro h
    rw [h] at hc
    exact absurd hc (by decide)
  simp [startsWithHash, hne]

theorem nl_not_mem_lineActive (k v : PyStr) (hk : '\n' ∉ k) (hv : '\n' ∉ v) :
    '\n' ∉ lineActive k v := by
  intro h
  simp only [lineActive, List.mem_append] at h
  rcases h with (h | h) | h
  · exact hk h
  · exact absurd h (by decide)
  · exact hv h

theorem nl_not_mem_lineInactive (n v : PyStr) (hn : '\n' ∉ n) (hv : '\n' ∉ v) :
    '\n' ∉ lineInactive n v := by
  intro h
  simp only [lineInactive, List.mem_append] at h
  rcases h with ((h | h) | h) | h
  · exact absurd h (by decide)
  · exact hn h
  · exact absurd h (by decide)
  · exact hv h

theorem ltS_head_lt (a b : Char) (x y : PyStr) (h : a < b) :
    ltS (a :: x) (b :: y) = true := by
  simp [ltS, h]

/-- Processing a block of well-formed commented lines: each line re-adds
its key under the commented spelling (no reactivation fires, because no
commented name is a key of `p0` and only commented keys have been written
so far), so the fold is a fold of plain writes that leaves every
uncommented key's binding untouched. -/
theorem mergeBody_comment_phase (p0 T : Table) (ls : List PyStr)
    (hT : ∀ q, startsWithHash q = false → tlookup T q = tlookup p0 q)
    (hls : ∀ l ∈ ls, ∃ n v, goodKeyB n = true ∧ goodValB v = true ∧
      tlookup p0 n = none ∧ l = lineInactive n v) :
    mergeBody T (ls.map (· ++ ['\n'])) = writeFold T (ls.map wline) ∧
    (∀ q, startsWithHash q = false →
      tlookup (writeFold T (ls.map wline)) q = tlookup p0 q) := by
  induction ls generalizing T with
  | nil => exact ⟨rfl, hT⟩
  | cons l rest ih =>
    obtain ⟨n, v, hn, hv, hp0, hl⟩ := hls l (by simp)
    have hnh : startsWithHash n = false := (goodKeyB_spec n hn).2.2.2.2.2.2.2
    have hup : updatePackagesLine T (l ++ ['\n']) = tinsert T ('#' :: ' ' :: n) v := by
      subst hl
      rw [updatePackagesLine_comment_line T n v ['\n'] hn hv
        (by intro c hc; simp at hc; subst hc; rfl) (by decide)]
      have hTn : tlookup T n = none := by
        rw [hT n hnh]
        exact hp0
      rw [hTn]
      simp
    have hw : wline l = ('#' :: ' ' :: n, v) := by
      subst hl
      exact wline_comment n v hn hv
    have hT2 : ∀ q, startsWithHash q = false →
        tlookup (tinsert T ('#' :: ' ' :: n) v) q = tlookup p0 q := by
      intro q hq
      rw [tlookup_tinsert]
      have hne : ¬ ('#' :: ' ' :: n) = q := by
        intro h
        rw [← h] at hq
        simp [startsWithHash] at hq
      rw [if_neg hne]
      exact hT q hq
    have ihr := ih (tinsert T ('#' :: ' ' :: n) v) hT2 (fun l2 h2 => hls l2 (by simp [h2]))
    constructor
    · show mergeBody T ((l ++ ['\n']) :: rest.map (· ++ ['\n'])) = _
      rw [mergeBody_cons, hup,
        show (l :: rest).map wline = wline l :: rest.map wline from rfl, hw, writeFold_cons]
      exact ihr.1
    · intro q hq
      rw [show (l :: rest).map wline = wline l :: rest.map wline from rfl, hw, writeFold_cons]
      exact ihr.2 q hq

/-- Processing a block of well-formed active lines: each line simply
assigns its key. -/
theorem mergeBody_active_phase (T : Table) (ls : List PyStr)
    (hls : ∀ l ∈ ls, ∃ k v, goodKeyB k = true ∧ goodValB v = true ∧ l = lineActive k v) :
    mergeBody T (ls.map (· ++ ['\n'])) = writeFold T (ls.map wline) := by
  induction ls generalizing T with
  | nil => rfl
  | cons l rest ih =>
    obtain ⟨k, v, hk, hv, hl⟩ := hls l (by simp)
    have hup : updatePackagesLine T (l ++ ['\n']) = tinsert T k v := by
      subst hl
      exact updatePackagesLine_active_line T k v ['\n'] hk hv
        (by intro c hc; simp at hc; subst hc; rfl) (by decide)
    have hw : wline l = (k, v) := by
      subst hl
      exact wline_active k v hk hv
    show mergeBody T ((l ++ ['\n']) :: rest.map (· ++ ['\n'])) = _
    rw [mergeBody_cons, hup,
      show (l :: rest).map wline = wline l :: rest.map wline from rfl, hw, writeFold_cons]
    exact ih (tinsert T k v) (fun l2 h2 => hls l2 (by simp [h2]))

/-- A commented key in its canonical generated spelling: `'# '` followed
by a well-formed name. -/
def hashKeyB (k : PyStr) : Bool :=
  match k with
  | c1 :: c2 :: n => decide (c1 = '#') && decide (c2 = ' ') && goodKeyB n
  | _ => false

/-- The name under a canonical commented key. -/
def hashName (k : PyStr) : PyStr :=
  match k with
  | _ :: _ :: n => n
  | k => k

theorem hashKeyB_spec (k : PyStr) (h : hashKeyB k = true) :
    ∃ n, k = '#' :: ' ' :: n ∧ goodKeyB n = true ∧ hashName k = n := by
  match k with
  | [] => simp [hashKeyB] at h
  | [c] => simp [hashKeyB] at h
  | c1 :: c2 :: n =>
    simp only [hashKeyB, Bool.and_eq_true, decide_eq_true_eq] at h
    exact ⟨n, by rw [h.1.1, h.1.2], h.2, rfl⟩

/-- The well-formedness conditions under which the second merge run is
shown to reproduce its input: all registry, discovery and merged-table
entries carry trimmed `'='`-free and newline-free names and values, the
registry and the discovered set have disjoint plain keys, every
discovered key survives into the merged table, commented keys of the
merged table use the canonical `'# name'` spelling and name no discovered
package, a commented entry whose name is still in the registry records
the registry's resolver id, and key lists are duplicate-free. -/
def mergeWF (G p0 p1 : Table) : Bool :=
  G.all (fun e => goodKeyB e.1 && goodValB e.2 && (tlookup p0 e.1).isNone &&
    decide ((tlookup p1 ('#' :: ' ' :: e.1)).getD e.2 = e.2)) &&
  p0.all (fun e => goodKeyB e.1 && goodValB e.2 && decide (e.1 ∈ tkeys p1)) &&
  p1.all (fun e => goodValB e.2 &&
    (goodKeyB e.1 || (hashKeyB e.1 && (tlookup p0 (hashName e.1)).isNone))) &&
  decide ((tkeys p0).Nodup) && decide ((tkeys p1).Nodup) &&
  decide (allSectionLines p1 G ≠ [])

theorem mergeWF_spec (G p0 p1 : Table) (h : mergeWF G p0 p1 = true) :
    (∀ e ∈ G, goodKeyB e.1 = true ∧ goodValB e.2 = true ∧ tlookup p0 e.1 = none ∧
      ∀ v, tlookup p1 ('#' :: ' ' :: e.1) = some v → v = e.2) ∧
    (∀ e ∈ p0, goodKeyB e.1 = true ∧ goodValB e.2 = true ∧ e.1 ∈ tkeys p1) ∧
    (∀ e ∈ p1, goodValB e.2 = true ∧ (goodKeyB e.1 = true ∨
      ∃ n, e.1 = '#' :: ' ' :: n ∧ goodKeyB n = true ∧ tlookup p0 n = none)) ∧
    (tkeys p0).Nodup ∧ (tkeys p1).Nodup ∧ allSectionLines p1 G ≠ [] := by
  simp only [mergeWF, Bool.and_eq_true, List.all_eq_true, decide_eq_true_eq] at h
  obtain ⟨⟨⟨⟨⟨hG, hp0⟩, hp1⟩, hnd0⟩, hnd1⟩, hne⟩ := h
  refine ⟨?_, ?_, ?_, hnd0, hnd1, hne⟩
  · intro e he
    have hh := hG e he
    simp only [Bool.and_eq_true, decide_eq_true_eq, Option.isNone_iff_eq_none] at hh
    obtain ⟨⟨⟨h1, h2⟩, h3⟩, h4⟩ := hh
    refine ⟨h1, h2, h3, ?_⟩
    intro v hv
    rw [hv] at h4
    exact h4
  · intro e he
    have hh := hp0 e he
    simp only [Bool.and_eq_true, decide_eq_true_eq] at hh
    exact ⟨hh.1.1, hh.1.2, hh.2⟩
  · intro e he
    have hh := hp1 e he
    simp only [Bool.and_eq_true, Bool.or_eq_true, Option.isNone_iff_eq_none] at hh
    refine ⟨hh.1, ?_⟩
    rcases hh.2 with h1 | ⟨h1, h2⟩
    · exact Or.inl h1
    · obtain ⟨n, hn1, hn2, hn3⟩ := hashKeyB_spec e.1 h1
      right
      exact ⟨n, hn1, hn2, by rw [← hn3]; exact h2⟩

theorem mem_allSectionLines (p G : Table) (l : PyStr) :
    l ∈ allSectionLines p G ↔
      (∃ e ∈ p, l = lineActive e.1 e.2) ∨ (∃ e ∈ G, l = lineInactive e.1 e.2) := by
  constructor
  · intro h
    rcases List.mem_append.mp h with h | h
    · obtain ⟨e, he, hfe⟩ := List.mem_map.mp h
      exact Or.inl ⟨e, he, hfe.symm⟩
    · obtain ⟨e, he, hfe⟩ := List.mem_map.mp h
      exact Or.inr ⟨e, he, hfe.symm⟩
  · intro h
    rcases h with ⟨e, he, rfl⟩ | ⟨e, he, rfl⟩
    · exact List.mem_append.mpr (Or.inl (List.mem_map.mpr ⟨e, he, rfl⟩))
    · exact List.mem_append.mpr (Or.inr (List.mem_map.mpr ⟨e, he, rfl⟩))

theorem sortSD_ne_nil (l : List PyStr) (h : l ≠ []) : sortSD l ≠ [] := by
  cases l with
  | nil => exact absurd rfl h
  | cons x xs =>
    intro hc
    have hm : x ∈ sortSD (x :: xs) := (mem_sortSD x (x :: xs)).mpr (by simp)
    rw [hc] at hm
    simp at hm

/-- Core of the idempotence analysis: re-merging the generated, sorted
section lines over the original discovery result reproduces exactly the
same sorted line set. -/
theorem run2_section_eq (G p0 p1 : Table) (L : List PyStr)
    (hwf : mergeWF G p0 p1 = true)
    (hLdef : L = sortSD (allSectionLines p1 G)) :
    sortSD (allSectionLines (mergeBody p0 (L.map (· ++ ['\n']))) G) = L := by
  obtain ⟨hG, hp0, hp1, hnd0, hnd1, _⟩ := mergeWF_spec G p0 p1 hwf
  have hmemL : ∀ x, x ∈ L ↔ x ∈ allSectionLines p1 G := by
    intro x
    rw [hLdef, mem_sortSD]
  have hclass : ∀ l ∈ L,
      (∃ n v, goodKeyB n = true ∧ goodValB v = true ∧ tlookup p0 n = none ∧
        l = lineInactive n v ∧ (('#' :: ' ' :: n, v) ∈ p1 ∨ (n, v) ∈ G)) ∨
      (∃ e, e ∈ p1 ∧ goodKeyB e.1 = true ∧ goodValB e.2 = true ∧
        l = lineActive e.1 e.2) := by
    intro l hl
    rcases (mem_allSectionLines p1 G l).mp ((hmemL l).mp hl) with ⟨e, he, rfl⟩ | ⟨e, he, rfl⟩
    · obtain ⟨hv, hkey⟩ := hp1 e he
      rcases hkey with hk | ⟨n, hn1, hn2, hn3⟩
      · exact Or.inr ⟨e, he, hk, hv, rfl⟩
      · left
        refine ⟨n, e.2, hn2, hv, hn3, ?_, Or.inl ?_⟩
        · rw [hn1, lineActive_hash_spelling]
        · rw [← hn1]
          exact he
    · obtain ⟨hk, hv2, hlp0, _⟩ := hG e he
      exact Or.inl ⟨e.1, e.2, hk, hv2, hlp0, rfl, Or.inr he⟩
  obtain ⟨LC, LA, hsplit, hLC, hLA⟩ := schain_split
    (fun l => ∃ n v, goodKeyB n = true ∧ goodValB v = true ∧ tlookup p0 n = none ∧
        l = lineInactive n v ∧ (('#' :: ' ' :: n, v) ∈ p1 ∨ (n, v) ∈ G))
    (fun l => ∃ e, e ∈ p1 ∧ goodKeyB e.1 = true ∧ goodValB e.2 = true ∧
        l = lineActive e.1 e.2)
    L (hLdef ▸ sortSD_schain (allSectionLines p1 G)) hclass
    (by
      intro x y hx hy
      obtain ⟨n, v, _, _, _, rfl, _⟩ := hx
      obtain ⟨e, _, hk, _, rfl⟩ := hy
      obtain ⟨_, ⟨c, rest, hcr, hc⟩, _⟩ := goodKeyB_spec e.1 hk
      rw [lineInactive_cons, hcr, lineActive_cons]
      exact ltS_head_lt '#' c _ _ hc)
  obtain ⟨hmergeC, hplainC⟩ := mergeBody_comment_phase p0 p0 LC (fun q _ => rfl)
    (fun l hl => by
      obtain ⟨n, v, h1, h2, h3, h4, _⟩ := hLC l hl
      exact ⟨n, v, h1, h2, h3, h4⟩)
  have hmergeA := mergeBody_active_phase (writeFold p0 (LC.map wline)) LA
    (fun l hl => by
      obtain ⟨e, _, hk, hv, hle⟩ := hLA l hl
      exact ⟨e.1, e.2, hk, hv, hle⟩)
  have hfold : mergeBody p0 (L.map (· ++ ['\n'])) =
      writeFold p0 (LC.map wline ++ LA.map wline) := by
    rw [hsplit, List.map_append, mergeBody_append, hmergeC, hmergeA, ← writeFold_append]
  have hwsC : ∀ w ∈ LC.map wline, ∃ n v, w = ('#' :: ' ' :: n, v) ∧ goodKeyB n = true ∧
      goodValB v = true ∧ (('#' :: ' ' :: n, v) ∈ p1 ∨ (n, v) ∈ G) := by
    intro w hw
    obtain ⟨l, hl, rfl⟩ := List.mem_map.mp hw
    obtain ⟨n, v, h1, h2, h3, rfl, h5⟩ := hLC l hl
    exact ⟨n, v, wline_comment n v h1 h2, h1, h2, h5⟩
  have hwsA : ∀ w ∈ LA.map wline, w ∈ p1 ∧ goodKeyB w.1 = true := by
    intro w hw
    obtain ⟨l, hl, rfl⟩ := List.mem_map.mp hw
    obtain ⟨e, he, hk, hv, rfl⟩ := hLA l hl
    rw [wline_active e.1 e.2 hk hv]
    exact ⟨he, hk⟩
  have hkeyC_ne : ∀ (q : PyStr), startsWithHash q = false →
      lastVal (LC.map wline) q = none := by
    intro q hq
    apply lastVal_eq_none
    intro w hw hqe
    obtain ⟨n, v, rfl, _⟩ := hwsC w hw
    rw [← hqe] at hq
    simp [startsWithHash] at hq
  have hkeyA_hash : ∀ (q : PyStr), startsWithHash q = true →
      lastVal (LA.map wline) q = none := by
    intro q hq
    apply lastVal_eq_none
    intro w hw hqe
    obtain ⟨_, hk⟩ := hwsA w hw
    have hsw := (goodKeyB_spec w.1 hk).2.2.2.2.2.2.2
    rw [hqe] at hsw
    rw [hsw] at hq
    exact absurd hq (by simp)
  have hp0hash : ∀ (q : PyStr), startsWithHash q = true → tlookup p0 q = none := by
    intro q hq
    cases hl0 : tlookup p0 q with
    | none => rfl
    | some v =>
      have hm := mem_of_tlookup_eq_some p0 q v hl0
      obtain ⟨hk, _⟩ := hp0 (q, v) hm
      have hsw := (goodKeyB_spec q hk).2.2.2.2.2.2.2
      rw [hsw] at hq
      exact absurd hq (by simp)
  have hlookA : ∀ q, lastVal (LC.map wline) q = none →
      tlookup (mergeBody p0 (L.map (· ++ ['\n']))) q =
        match lastVal (LA.map wline) q with
        | some v => some v
        | none => tlookup p0 q := by
    intro q hC
    rw [hfold, tlookup_writeFold, lastVal_append]
    cases hA : lastVal (LA.map wline) q <;> simp [hA, hC]
  have hlookC : ∀ q, lastVal (LA.map wline) q = none →
      tlookup (mergeBody p0 (L.map (· ++ ['\n']))) q =
        match lastVal (LC.map wline) q with
        | some v => some v
        | none => tlookup p0 q := by
    intro q hA
    rw [hfold, tlookup_writeFold, lastVal_append]
    cases hC : lastVal (LC.map wline) q <;> simp [hA, hC]
  have hinLA_of : ∀ (k v : PyStr), goodKeyB k = true → (k, v) ∈ p1 →
      lineActive k v ∈ LA := by
    intro k v hk hkv
    have hline : lineActive k v ∈ L :=
      (hmemL _).mpr ((mem_allSectionLines p1 G _).mpr (Or.inl ⟨(k, v), hkv, rfl⟩))
    rw [hsplit] at hline
    rcases List.mem_append.mp hline with h | h
    · exfalso
      obtain ⟨n2, v2, _, _, _, heq, _⟩ := hLC _ h
      have h1 := startsWithHash_lineActive k v hk
      rw [heq, startsWithHash_lineInactive] at h1
      exact absurd h1 (by simp)
    · exact h
  have hplain_fwd : ∀ e : PyStr × PyStr, e ∈ p1 → goodKeyB e.1 = true →
      tlookup (mergeBody p0 (L.map (· ++ ['\n']))) e.1 = some e.2 := by
    intro e he hk
    have hwrite : (e.1, e.2) ∈ LA.map wline :=
      List.mem_map.mpr ⟨lineActive e.1 e.2, hinLA_of e.1 e.2 hk he,
        wline_active e.1 e.2 hk (hp1 e he).1⟩
    have hlv : lastVal (LA.map wline) e.1 = some e.2 := by
      apply lastVal_eq_some
      · exact ⟨(e.1, e.2), hwrite, rfl⟩
      · intro w hw hwq
        obtain ⟨hwp, _⟩ := hwsA w hw
        refine val_unique_nodup p1 e.1 w.2 e.2 hnd1 ?_ he
        rw [← hwq]
        exact hwp
    have hsw : startsWithHash e.1 = false := (goodKeyB_spec e.1 hk).2.2.2.2.2.2.2
    rw [hlookA e.1 (hkeyC_ne e.1 hsw), hlv]
  have hhash_fwd : ∀ n v, ('#' :: ' ' :: n, v) ∈ p1 → goodKeyB n = true →
      goodValB v = true →
      tlookup (mergeBody p0 (L.map (· ++ ['\n']))) ('#' :: ' ' :: n) = some v := by
    intro n v he hkn hvv
    have hline : lineInactive n v ∈ L :=
      (hmemL _).mpr ((mem_allSectionLines p1 G _).mpr
        (Or.inl ⟨('#' :: ' ' :: n, v), he, (lineActive_hash_spelling n v).symm⟩))
    have hinLC : lineInactive n v ∈ LC := by
      rw [hsplit] at hline
      rcases List.mem_append.mp hline with h | h
      · exact h
      · exfalso
        obtain ⟨e, _, hk, _, heq⟩ := hLA _ h
        have h1 := startsWithHash_lineActive e.1 e.2 hk
        rw [← heq, startsWithHash_lineInactive] at h1
        exact absurd h1 (by simp)
    have hwrite : ('#' :: ' ' :: n, v) ∈ LC.map wline :=
      List.mem_map.mpr ⟨lineInactive n v, hinLC, wline_comment n v hkn hvv⟩
    have hlv : lastVal (LC.map wline) ('#' :: ' ' :: n) = some v := by
      apply lastVal_eq_some
      · exact ⟨('#' :: ' ' :: n, v), hwrite, rfl⟩
      · intro w hw hwq
        obtain ⟨n2, v2, rfl, hk2, hv2, hsrc⟩ := hwsC w hw
        have hn2 : n2 = n := by
          have h1 : '#' :: ' ' :: n2 = '#' :: ' ' :: n := hwq
          simpa using h1
        subst hn2
        rcases hsrc with hsrc | hsrc
        · exact val_unique_nodup p1 ('#' :: ' ' :: n2) v2 v hnd1 hsrc he
        · have hcond := (hG (n2, v2) hsrc).2.2.2
          have hlkp : tlookup p1 ('#' :: ' ' :: n2) = some v :=
            tlookup_of_mem_nodup p1 ('#' :: ' ' :: n2, v) hnd1 he
          exact (hcond v hlkp).symm
    rw [hlookC _ (hkeyA_hash ('#' :: ' ' :: n) rfl), hlv]
  have hmem : ∀ x, x ∈ allSectionLines (mergeBody p0 (L.map (· ++ ['\n']))) G ↔
      x ∈ allSectionLines p1 G := by
    intro x
    rw [mem_allSectionLines, mem_allSectionLines]
    constructor
    · rintro (⟨e, he, rfl⟩ | h)
      · have hnd2 : (tkeys (mergeBody p0 (L.map (· ++ ['\n'])))).Nodup := by
          rw [hfold]
          exact nodup_writeFold (LC.map wline ++ LA.map wline) p0 hnd0
        have hlk := tlookup_of_mem_nodup _ e hnd2 he
        by_cases hq : startsWithHash e.1 = true
        · rw [hlookC e.1 (hkeyA_hash e.1 hq)] at hlk
          cases hC : lastVal (LC.map wline) e.1 with
          | none =>
            simp only [hC] at hlk
            rw [hp0hash e.1 hq] at hlk
            exact absurd hlk (by simp)
          | some v =>
            simp only [hC] at hlk
            have hv := Option.some.inj hlk
            have hmemw := lastVal_mem _ _ _ hC
            obtain ⟨n2, v2, heqw, hk2, hv2, hsrc⟩ := hwsC _ hmemw
            have he1 : e.1 = '#' :: ' ' :: n2 := congrArg Prod.fst heqw
            have he2 : e.2 = v2 := by
              rw [← hv]
              exact congrArg Prod.snd heqw
            rcases hsrc with hsrc | hsrc
            · left
              refine ⟨('#' :: ' ' :: n2, v2), hsrc, ?_⟩
              rw [he1, he2]
            · right
              refine ⟨(n2, v2), hsrc, ?_⟩
              rw [he1, he2]
              exact lineActive_hash_spelling n2 v2
        · have hq2 : startsWithHash e.1 = false := by
            cases hb : startsWithHash e.1
            · rfl
            · exact absurd hb hq
          rw [hlookA e.1 (hkeyC_ne e.1 hq2)] at hlk
          cases hA : lastVal (LA.map wline) e.1 with
          | some v =>
            simp only [hA] at hlk
            have hv := Option.some.inj hlk
            have hmemw := lastVal_mem _ _ _ hA
            obtain ⟨hwp, _⟩ := hwsA _ hmemw
            left
            refine ⟨(e.1, v), hwp, ?_⟩
            rw [hv]
          | none =>
            simp only [hA] at hlk
            have hm0 := mem_of_tlookup_eq_some p0 e.1 e.2 hlk
            obtain ⟨hk0, _, hk1⟩ := hp0 (e.1, e.2) hm0
            obtain ⟨v1, hv1⟩ := exists_val_of_mem_tkeys p1 e.1 hk1
            exfalso
            have hwrite : (e.1, v1) ∈ LA.map wline :=
              List.mem_map.mpr ⟨lineActive e.1 v1, hinLA_of e.1 v1 hk0 hv1,
                wline_active e.1 v1 hk0 (hp1 (e.1, v1) hv1).1⟩
            have hs := lastVal_isSome_of_mem (LA.map wline) e.1 (e.1, v1) hwrite rfl
            rw [hA] at hs
            simp at hs
      · exact Or.inr h
    · rintro (⟨e, he, rfl⟩ | h)
      · obtain ⟨hv, hkey⟩ := hp1 e he
        rcases hkey with hk | ⟨n, hn1, hn2, _⟩
        · left
          exact ⟨(e.1, e.2), mem_of_tlookup_eq_some _ e.1 e.2 (hplain_fwd e he hk), rfl⟩
        · have he2 : ('#' :: ' ' :: n, e.2) ∈ p1 := by
            rw [← hn1]
            exact he
          left
          refine ⟨('#' :: ' ' :: n, e.2),
            mem_of_tlookup_eq_some _ _ _ (hhash_fwd n e.2 he2 hn2 hv), ?_⟩
          rw [hn1]
      · exact Or.inr h
  conv_rhs => rw [hLdef]
  exact schain_canonical _ _ (sortSD_schain _) (sortSD_schain _)
    (fun x => by
      rw [mem_sortSD, mem_sortSD]
      exact hmem x)

/-! ## Claim C1: idempotent merge with dirty-check write -/

/-- C1 counterexample: the merge is not idempotent in general.  For the
registry `{Gee: gee-0.8}`, nothing discovered, and the settings file
`"[Packages]\n# Gee = custom\n"` (a commented entry whose key is still in
the registry but whose recorded resolver id differs from the registry's),
the first run emits two commented `Gee` lines, and the second run — run on
the first run's output — produces different content and therefore performs
a write: the dirty flag of the second run is `true`. -/
theorem merge_idempotent_counterexample :
    (maybe_update_ini [(pys "Gee", pys "gee-0.8")] []
      (maybe_update_ini [(pys "Gee", pys "gee-0.8")] []
        (pys "[Packages]\n# Gee = custom\n")).1).2 = true ∧
    (maybe_update_ini [(pys "Gee", pys "gee-0.8")] []
      (maybe_update_ini [(pys "Gee", pys "gee-0.8")] []
        (pys "[Packages]\n# Gee = custom\n")).1).1 ≠
      (maybe_update_ini [(pys "Gee", pys "gee-0.8")] []
        (pys "[Packages]\n# Gee = custom\n")).1 := by
  refine ⟨rfl, ?_⟩
  decide

/-- C1 (amended): merge idempotence with a dirty-check write, under the
conditions that make it hold.  If the settings file contains a
`[Packages]` header, and the table obtained by folding the old section
body over the discovery result is well formed in the sense of `mergeWF`
— names and resolver ids are trimmed and free of `'='` and newlines,
registry and discovered keys are disjoint plain names, discovered keys
survive into the merged table, commented keys use the canonical `'# '`
spelling and name no discovered package, and every commented entry whose
name is still in the registry records the registry's resolver id — then
running `maybe_update_ini` a second time on the first run's output
reconstructs byte-identical content and reports the file clean, so no
write happens. -/
theorem merge_idempotent (G p0 : Table) (c : PyStr)
    (hf : (splitHeader (readlines c)).2.1 = true)
    (hwf : mergeWF G p0 (mergeBody p0 (splitHeader (readlines c)).2.2) = true) :
    maybe_update_ini G p0 (maybe_update_ini G p0 c).1 =
      ((maybe_update_ini G p0 c).1, false) := by
  obtain ⟨hdr, hhdr, hdecomp, hnohdr⟩ := splitHeader_decomp (readlines c) hf
  have hterm : ∀ l ∈ (splitHeader (readlines c)).1, lineTerm l :=
    readlines_terms c _ hdr _ hdecomp
  have hc1 : (maybe_update_ini G p0 c).1 =
      joinAll (splitHeader (readlines c)).1 ++
        make_packages_section (mergeBody p0 (splitHeader (readlines c)).2.2) G := rfl
  obtain ⟨hG, hp0S, hp1all, -, -, hne⟩ := mergeWF_spec G p0 _ hwf
  have hLne : sortSD (allSectionLines (mergeBody p0 (splitHeader (readlines c)).2.2) G) ≠ [] :=
    sortSD_ne_nil _ hne
  have hnlL : ∀ l ∈ sortSD (allSectionLines (mergeBody p0 (splitHeader (readlines c)).2.2) G),
      '\n' ∉ l := by
    intro l hl
    rcases (mem_allSectionLines _ G l).mp ((mem_sortSD _ _).mp hl) with
      ⟨e, he, rfl⟩ | ⟨e, he, rfl⟩
    · obtain ⟨hv, hkey⟩ := hp1all e he
      have hvnl : '\n' ∉ e.2 := (goodValB_spec e.2 hv).2.2.2
      have hknl : '\n' ∉ e.1 := by
        rcases hkey with hk | ⟨n, hn1, hn2, -⟩
        · exact (goodKeyB_spec e.1 hk).2.2.2.2.2.2.1
        · rw [hn1]
          intro hmem
          rcases List.mem_cons.mp hmem with h | h
          · exact absurd h (by decide)
          · rcases List.mem_cons.mp h with h | h
            · exact absurd h (by decide)
            · exact (goodKeyB_spec n hn2).2.2.2.2.2.2.1 h
      exact nl_not_mem_lineActive e.1 e.2 hknl hvnl
    · obtain ⟨hk, hv, -, -⟩ := hG e he
      exact nl_not_mem_lineInactive e.1 e.2
        ((goodKeyB_spec e.1 hk).2.2.2.2.2.2.1) ((goodValB_spec e.2 hv).2.2.2)
  have hsec : make_packages_section (mergeBody p0 (splitHeader (readlines c)).2.2) G =
      (pys "[Packages]" ++ ['\n']) ++
        joinAll ((sortSD (allSectionLines (mergeBody p0 (splitHeader (readlines c)).2.2) G)).map
          (· ++ ['\n'])) := by
    rw [make_packages_section, ← intercalate_newline _ hLne]
    have h1 : pys "[Packages]\n" = pys "[Packages]" ++ ['\n'] := rfl
    rw [h1, List.append_assoc, List.append_assoc]
  have hMterm : ∀ l ∈ (sortSD (allSectionLines
        (mergeBody p0 (splitHeader (readlines c)).2.2) G)).map (· ++ ['\n']),
      lineTerm l := by
    intro l hl
    obtain ⟨x, hx, rfl⟩ := List.mem_map.mp hl
    exact ⟨x, hnlL x hx, rfl⟩
  have hjoinM : readlines (joinAll ((sortSD (allSectionLines
        (mergeBody p0 (splitHeader (readlines c)).2.2) G)).map (· ++ ['\n']))) =
      (sortSD (allSectionLines (mergeBody p0 (splitHeader (readlines c)).2.2) G)).map
        (· ++ ['\n']) := by
    have h2 := readlines_append_terminated _ hMterm []
    rw [List.append_nil] at h2
    have h3 : readlines ([] : PyStr) = [] := rfl
    rw [h3, List.append_nil] at h2
    exact h2
  have hread : readlines ((maybe_update_ini G p0 c).1) =
      (splitHeader (readlines c)).1 ++ (pys "[Packages]" ++ ['\n']) ::
        (sortSD (allSectionLines (mergeBody p0 (splitHeader (readlines c)).2.2) G)).map
          (· ++ ['\n']) := by
    rw [hc1, hsec]
    have hassoc : joinAll (splitHeader (readlines c)).1 ++
        ((pys "[Packages]" ++ ['\n']) ++
          joinAll ((sortSD (allSectionLines
            (mergeBody p0 (splitHeader (readlines c)).2.2) G)).map (· ++ ['\n']))) =
        joinAll (splitHeader (readlines c)).1 ++
          (pys "[Packages]" ++ ('\n' :: joinAll ((sortSD (allSectionLines
            (mergeBody p0 (splitHeader (readlines c)).2.2) G)).map (· ++ ['\n'])))) := by
      simp [List.append_assoc]
    rw [hassoc, readlines_append_terminated _ hterm _,
      readlines_cons_line (pys "[Packages]") (by decide) _, hjoinM]
  have hsp2 : splitHeader (readlines ((maybe_update_ini G p0 c).1)) =
      ((splitHeader (readlines c)).1, true,
        (sortSD (allSectionLines (mergeBody p0 (splitHeader (readlines c)).2.2) G)).map
          (· ++ ['\n'])) := by
    rw [hread]
    exact splitHeader_of_shape _ _ _ hnohdr (by decide)
  have hN : joinAll (splitHeader (readlines ((maybe_update_ini G p0 c).1))).1 ++
      make_packages_section
        (mergeBody p0 (splitHeader (readlines ((maybe_update_ini G p0 c).1))).2.2) G =
      (maybe_update_ini G p0 c).1 := by
    rw [hsp2]
    show joinAll (splitHeader (readlines c)).1 ++
      make_packages_section (mergeBody p0 ((sortSD (allSectionLines
        (mergeBody p0 (splitHeader (readlines c)).2.2) G)).map (· ++ ['\n']))) G =
      (maybe_update_ini G p0 c).1
    rw [hc1]
    rw [make_packages_section, make_packages_section,
      run2_section_eq G p0 (mergeBody p0 (splitHeader (readlines c)).2.2) _ hwf rfl]
  have hstruct : maybe_update_ini G p0 ((maybe_update_ini G p0 c).1) =
      (joinAll (splitHeader (readlines ((maybe_update_ini G p0 c).1))).1 ++
        make_packages_section
          (mergeBody p0 (splitHeader (readlines ((maybe_update_ini G p0 c).1))).2.2) G,
       decide (joinAll (splitHeader (readlines ((maybe_update_ini G p0 c).1))).1 ++
        make_packages_section
          (mergeBody p0 (splitHeader (readlines ((maybe_update_ini G p0 c).1))).2.2) G ≠
        (maybe_update_ini G p0 c).1)) := rfl
  rw [hstruct, hN]
  simp

/-- Witness for C1's amended theorem: the settings file
`"name = x\n[Packages]\nGee = libgee\n# Foo = foo-1.0\n"` with registry
`{Gio: gio-2.0}` and discovery result `{Gee: gee-0.8}` satisfies both
hypotheses, and the second merge run reproduces the first run's output
with the dirty flag `false`. -/
theorem merge_idempotent_witness :
    maybe_update_ini [(pys "Gio", pys "gio-2.0")] [(pys "Gee", pys "gee-0.8")]
      (maybe_update_ini [(pys "Gio", pys "gio-2.0")] [(pys "Gee", pys "gee-0.8")]
        (pys "name = x\n[Packages]\nGee = libgee\n# Foo = foo-1.0\n")).1 =
    ((maybe_update_ini [(pys "Gio", pys "gio-2.0")] [(pys "Gee", pys "gee-0.8")]
        (pys "name = x\n[Packages]\nGee = libgee\n# Foo = foo-1.0\n")).1, false) :=
  merge_idempotent [(pys "Gio", pys "gio-2.0")] [(pys "Gee", pys "gee-0.8")]
    (pys "name = x\n[Packages]\nGee = libgee\n# Foo = foo-1.0\n")
    (by decide) (by decide)

/-! ## Fold lemmas for the old-section reconciliation -/

theorem mem_tinsert (t : Table) (k v : PyStr) (e : PyStr × PyStr)
    (h : e ∈ tinsert t k v) : e = (k, v) ∨ e ∈ t := by
  induction t with
  | nil => simpa [tinsert] using h
  | cons f t ih =>
    obtain ⟨k', v'⟩ := f
    unfold tinsert at h
    by_cases hk : k' = k
    · rw [if_pos hk] at h
      rcases List.mem_cons.mp h with h | h
      · exact Or.inl h
      · exact Or.inr (List.mem_cons_of_mem _ h)
    · rw [if_neg hk] at h
      rcases List.mem_cons.mp h with h | h
      · exact Or.inr (by simp [h])
      · rcases ih h with h | h
        · exact Or.inl h
        · exact Or.inr (List.mem_cons_of_mem _ h)

theorem mem_pstrip (c : Char) (x : PyStr) (h : c ∈ pstrip x) : c ∈ x := by
  unfold pstrip prstrip plstrip at h
  rw [List.mem_reverse] at h
  have h2 := (List.dropWhile_sublist (l := (x.dropWhile isPySpace).reverse)
    (p := isPySpace)).subset h
  rw [List.mem_reverse] at h2
  exact (List.dropWhile_sublist (l := x) (p := isPySpace)).subset h2

theorem mem_lstripHashSpace (c : Char) (x : PyStr) (h : c ∈ lstripHashSpace x) : c ∈ x :=
  (List.dropWhile_sublist (l := x) (p := fun c => c = '#' || c = ' ')).subset h

theorem splitEq_parts (l k0 v0 : PyStr) (h : splitEq l = some (k0, v0)) :
    k0 = l.takeWhile (fun c => !decide (c = '=')) ∧ '=' ∉ v0 := by
  unfold splitEq at h
  cases hdw : l.dropWhile (fun c => decide (c ≠ '=')) with
  | nil => rw [hdw] at h; simp at h
  | cons c b =>
    rw [hdw] at h
    by_cases hb : '=' ∈ b
    · simp [hb] at h
    · simp [hb] at h
      exact ⟨h.1.symm, h.2 ▸ hb⟩

theorem updatePackagesLine_eq_none (p : Table) (l : PyStr) (hsp : splitEq l = none) :
    updatePackagesLine p l = p := by
  simp only [updatePackagesLine, hsp]

theorem updatePackagesLine_eq_some (p : Table) (l k0 v0 : PyStr)
    (hsp : splitEq l = some (k0, v0)) :
    updatePackagesLine p l =
      if startsWithHash (pstrip k0) = true then
        (if (tlookup p (lstripHashSpace (pstrip k0))).isSome = true then
          tinsert p (lstripHashSpace (pstrip k0)) (pstrip v0)
        else tinsert p (pstrip k0) (pstrip v0))
      else tinsert p (pstrip k0) (pstrip v0) := by
  simp only [updatePackagesLine, hsp]

theorem mem_takeWhile_pred (p : Char → Bool) (l : PyStr) (c : Char)
    (h : c ∈ l.takeWhile p) : p c = true := by
  induction l with
  | nil => simp at h
  | cons a as ih =>
    rw [List.takeWhile] at h
    cases hp : p a with
    | false => rw [hp] at h; simp at h
    | true =>
      rw [hp] at h
      rcases List.mem_cons.mp h with h | h
      · rw [h]; exact hp
      · exact ih h

theorem updatePackagesLine_keys_eqfree (p : Table) (l : PyStr)
    (hp : ∀ e ∈ p, '=' ∉ e.1) : ∀ e ∈ updatePackagesLine p l, '=' ∉ e.1 := by
  cases hsp : splitEq l with
  | none => rw [updatePackagesLine_eq_none p l hsp]; exact hp
  | some kv =>
    obtain ⟨k0, v0⟩ := kv
    have hk0 : '=' ∉ pstrip k0 := by
      intro hc
      have h1 := mem_pstrip _ _ hc
      rw [(splitEq_parts l k0 v0 hsp).1] at h1
      have := mem_takeWhile_pred _ _ _ h1
      simp at this
    rw [updatePackagesLine_eq_some p l k0 v0 hsp]
    intro e he
    by_cases hh : startsWithHash (pstrip k0) = true
    · rw [if_pos hh] at he
      by_cases hl : (tlookup p (lstripHashSpace (pstrip k0))).isSome = true
      · rw [if_pos hl] at he
        rcases mem_tinsert _ _ _ _ he with h | h
        · rw [h]
          intro hc
          exact hk0 (mem_lstripHashSpace _ _ hc)
        · exact hp e h
      · rw [if_neg hl] at he
        rcases mem_tinsert _ _ _ _ he with h | h
        · rw [h]; exact hk0
        · exact hp e h
    · rw [if_neg hh] at he
      rcases mem_tinsert _ _ _ _ he with h | h
      · rw [h]; exact hk0
      · exact hp e h

theorem mergeBody_keys_eqfree (body : List PyStr) :
    ∀ (p : Table), (∀ e ∈ p, '=' ∉ e.1) → ∀ e ∈ mergeBody p body, '=' ∉ e.1 := by
  induction body with
  | nil => intro p hp; exact hp
  | cons l rest ih =>
    intro p hp
    exact ih (updatePackagesLine p l) (updatePackagesLine_keys_eqfree p l hp)

theorem startsWithHash_lstripHashSpace (x : PyStr) :
    startsWithHash (lstripHashSpace x) = false := by
  induction x with
  | nil => rfl
  | cons c rest ih =>
    unfold lstripHashSpace at ih ⊢
    rw [List.dropWhile_cons]
    by_cases hc : (c = '#' || c = ' ') = true
    · rw [if_pos hc]; exact ih
    · rw [if_neg hc]
      simp only [startsWithHash, decide_eq_false_iff_not]
      intro he
      subst he
      simp at hc

theorem updatePackagesLine_lookup_nonhash (p : Table) (l : PyStr) (q : PyStr)
    (hq : startsWithHash q = false) (hname : parsedName l ≠ some q) :
    tlookup (updatePackagesLine p l) q = tlookup p q := by
  cases hsp : splitEq l with
  | none => rw [updatePackagesLine_eq_none p l hsp]
  | some kv =>
    obtain ⟨k0, v0⟩ := kv
    rw [updatePackagesLine_eq_some p l k0 v0 hsp]
    by_cases hh : startsWithHash (pstrip k0) = true
    · have hpn : parsedName l = some (lstripHashSpace (pstrip k0)) := by
        simp only [parsedName, hsp, hh, if_true]
      rw [if_pos hh]
      by_cases hl : (tlookup p (lstripHashSpace (pstrip k0))).isSome = true
      · rw [if_pos hl, tlookup_tinsert, if_neg ?_]
        intro he
        exact hname (he ▸ hpn)
      · rw [if_neg hl, tlookup_tinsert, if_neg ?_]
        intro he
        rw [← he] at hq
        rw [hh] at hq
        exact absurd hq (by simp)
    · have hpn : parsedName l = some (pstrip k0) := by
        simp only [parsedName, hsp, hh, Bool.false_eq_true, if_false]
      rw [if_neg hh, tlookup_tinsert, if_neg ?_]
      intro he
      exact hname (he ▸ hpn)

theorem updatePackagesLine_lookup_hashkey (p : Table) (l : PyStr) (kx : PyStr)
    (hkx : startsWithHash kx = true)
    (hname : parsedName l ≠ some (lstripHashSpace kx)) :
    tlookup (updatePackagesLine p l) kx = tlookup p kx := by
  cases hsp : splitEq l with
  | none => rw [updatePackagesLine_eq_none p l hsp]
  | some kv =>
    obtain ⟨k0, v0⟩ := kv
    rw [updatePackagesLine_eq_some p l k0 v0 hsp]
    by_cases hh : startsWithHash (pstrip k0) = true
    · have hpn : parsedName l = some (lstripHashSpace (pstrip k0)) := by
        simp only [parsedName, hsp, hh, if_true]
      rw [if_pos hh]
      by_cases hl : (tlookup p (lstripHashSpace (pstrip k0))).isSome = true
      · rw [if_pos hl, tlookup_tinsert, if_neg ?_]
        intro he
        rw [← he, startsWithHash_lstripHashSpace] at hkx
        simp at hkx
      · rw [if_neg hl, tlookup_tinsert, if_neg ?_]
        intro he
        apply hname
        rw [hpn, ← he]
    · have hpn : parsedName l = some (pstrip k0) := by
        simp only [parsedName, hsp, hh, Bool.false_eq_true, if_false]
      rw [if_neg hh, tlookup_tinsert, if_neg ?_]
      intro he
      rw [he] at hh
      rw [hkx] at hh
      simp at hh

theorem hash_cons_ne_key (k : PyStr) (hsh : startsWithHash k = false) :
    ('#' :: ' ' :: k) ≠ k := by
  intro he
  have := congrArg startsWithHash he
  rw [hsh] at this
  simp [startsWithHash] at this

theorem mergeBody_comment_preserved (k v : PyStr)
    (hk : goodKeyB k = true) (hv : goodValB v = true) :
    ∀ (body : List PyStr) (p : Table),
      tlookup p k = none →
      (∀ l ∈ body, l = lineInactive k v ++ pys "\n" ∨ l = lineInactive k v ∨
        parsedName l ≠ some k) →
      tlookup (mergeBody p body) k = none ∧
      (tlookup p ('#' :: ' ' :: k) = some v →
        tlookup (mergeBody p body) ('#' :: ' ' :: k) = some v) ∧
      (((lineInactive k v ++ pys "\n") ∈ body ∨ lineInactive k v ∈ body) →
        tlookup (mergeBody p body) ('#' :: ' ' :: k) = some v) := by
  have hsh : startsWithHash k = false := (goodKeyB_spec k hk).2.2.2.2.2.2.2
  have hlsk : lstripHashSpace ('#' :: ' ' :: k) = k := by
    obtain ⟨_, ⟨c, rest, hcr, hc⟩, _⟩ := goodKeyB_spec k hk
    exact lstripHashSpace_hash_space k (Or.inr ⟨c, rest, hcr, hc⟩)
  have hwsnl : ∀ c ∈ pys "\n", isPySpace c = true := by
    intro c hc
    simp [pys] at hc
    subst hc
    rfl
  have heqnl : '=' ∉ pys "\n" := by decide
  have hwsnil : ∀ c ∈ ([] : PyStr), isPySpace c = true := by intro c hc; simp at hc
  have heqnil : '=' ∉ ([] : PyStr) := by simp
  intro body
  induction body with
  | nil =>
    intro p h1 h3
    refine ⟨h1, fun h => h, fun h => by simp at h⟩
  | cons l rest ih =>
    intro p h1 h3
    have hstep : mergeBody p (l :: rest) = mergeBody (updatePackagesLine p l) rest := rfl
    have h3' : ∀ l' ∈ rest, l' = lineInactive k v ++ pys "\n" ∨ l' = lineInactive k v ∨
        parsedName l' ≠ some k := fun l' hl' => h3 l' (by simp [hl'])
    rcases h3 l (by simp) with hl | hl | hl
    · -- the commented line itself, newline-terminated
      have hupd : updatePackagesLine p l = tinsert p ('#' :: ' ' :: k) v := by
        rw [hl, updatePackagesLine_comment_line p k v (pys "\n") hk hv hwsnl heqnl, h1]
        simp
      have h1' : tlookup (updatePackagesLine p l) k = none := by
        rw [hupd, tlookup_tinsert, if_neg (hash_cons_ne_key k hsh)]
        exact h1
      have h2' : tlookup (updatePackagesLine p l) ('#' :: ' ' :: k) = some v := by
        rw [hupd, tlookup_tinsert, if_pos rfl]
      obtain ⟨ihA, ihB, _⟩ := ih (updatePackagesLine p l) h1' h3'
      rw [hstep]
      exact ⟨ihA, fun _ => ihB h2', fun _ => ihB h2'⟩
    · -- the commented line itself, at end of file without newline
      have hupd : updatePackagesLine p l = tinsert p ('#' :: ' ' :: k) v := by
        have he : lineInactive k v = lineInactive k v ++ ([] : PyStr) := by simp
        rw [hl, he, updatePackagesLine_comment_line p k v [] hk hv hwsnil heqnil, h1]
        simp
      have h1' : tlookup (updatePackagesLine p l) k = none := by
        rw [hupd, tlookup_tinsert, if_neg (hash_cons_ne_key k hsh)]
        exact h1
      have h2' : tlookup (updatePackagesLine p l) ('#' :: ' ' :: k) = some v := by
        rw [hupd, tlookup_tinsert, if_pos rfl]
      obtain ⟨ihA, ihB, _⟩ := ih (updatePackagesLine p l) h1' h3'
      rw [hstep]
      exact ⟨ihA, fun _ => ihB h2', fun _ => ihB h2'⟩
    · -- an unrelated line
      have hA : tlookup (updatePackagesLine p l) k = tlookup p k :=
        updatePackagesLine_lookup_nonhash p l k hsh hl
      have hB : tlookup (updatePackagesLine p l) ('#' :: ' ' :: k) =
          tlookup p ('#' :: ' ' :: k) :=
        updatePackagesLine_lookup_hashkey p l ('#' :: ' ' :: k) rfl (by rw [hlsk]; exact hl)
      obtain ⟨ihA, ihB, ihC⟩ := ih (updatePackagesLine p l) (by rw [hA]; exact h1) h3'
      rw [hstep]
      refine ⟨ihA, fun hs => ihB (by rw [hB]; exact hs), ?_⟩
      intro hmem
      have hlnoteq1 : l ≠ lineInactive k v ++ pys "\n" := by
        intro he
        rw [he] at hl
        exact hl (parsedName_comment k v (pys "\n") hk hv hwsnl heqnl)
      have hlnoteq2 : l ≠ lineInactive k v := by
        intro he
        have he2 : lineInactive k v = lineInactive k v ++ ([] : PyStr) := by simp
        rw [he, he2] at hl
        exact hl (parsedName_comment k v [] hk hv hwsnil heqnil)
      rcases hmem with hm | hm
      · rcases List.mem_cons.mp hm with he | hm'
        · exact absurd he.symm hlnoteq1
        · exact ihC (Or.inl hm')
      · rcases List.mem_cons.mp hm with he | hm'
        · exact absurd he.symm hlnoteq2
        · exact ihC (Or.inr hm')

theorem lineActive_key_inj (k1 v1 k2 v2 : PyStr) (h1 : '=' ∉ k1) (h2 : '=' ∉ k2)
    (he : lineActive k1 v1 = lineActive k2 v2) : k1 = k2 ∧ v1 = v2 := by
  have hd1 : lineActive k1 v1 = (k1 ++ [' ']) ++ '=' :: (' ' :: v1) := by
    simp [lineActive, pys, List.append_assoc]
  have hd2 : lineActive k2 v2 = (k2 ++ [' ']) ++ '=' :: (' ' :: v2) := by
    simp [lineActive, pys, List.append_assoc]
  rw [hd1, hd2] at he
  have hx1 : ∀ c ∈ k1 ++ [' '], (!decide (c = '=')) = true := by
    intro c hc
    simp only [List.mem_append, List.mem_singleton] at hc
    rcases hc with hc | hc
    · simp only [Bool.not_eq_true', decide_eq_false_iff_not]
      intro hcon
      exact h1 (hcon ▸ hc)
    · subst hc; decide
  have hx2 : ∀ c ∈ k2 ++ [' '], (!decide (c = '=')) = true := by
    intro c hc
    simp only [List.mem_append, List.mem_singleton] at hc
    rcases hc with hc | hc
    · simp only [Bool.not_eq_true', decide_eq_false_iff_not]
      intro hcon
      exact h2 (hcon ▸ hc)
    · subst hc; decide
  have ht1 := takeWhile_append_stop (fun c => !decide (c = '=')) (k1 ++ [' ']) '=' (' ' :: v1)
    hx1 (by decide)
  have ht2 := takeWhile_append_stop (fun c => !decide (c = '=')) (k2 ++ [' ']) '=' (' ' :: v2)
    hx2 (by decide)
  have hk : k1 ++ [' '] = k2 ++ [' '] := by
    rw [← ht1.1, ← ht2.1, he]
  have hkk : k1 = k2 := by
    have := congrArg List.reverse hk
    simp at this
    have := congrArg List.reverse this
    simpa using this
  refine ⟨hkk, ?_⟩
  subst hkk
  have := List.append_cancel_left (hd1 ▸ hd2 ▸ he)
  simpa using this

/-! ## Claim C3: unused-package preservation -/

/-- C3 counterexample: in the settings file
`[Packages]\nGee = v1\n# Gee = v2\n` with nothing discovered and an empty
registry, the commented entry `# Gee = v2` has a key outside the
discovered set, yet the regenerated section reactivates it as the active
line `Gee = v2` (the earlier active line put `Gee` into the in-progress
dict, so `src/vb.py:312` falls through to `packages[key] = value`): it is
neither kept commented nor left with an uncommented record of `v1`. -/
theorem unused_commented_package_counterexample :
    (maybe_update_ini [] [] (pys "[Packages]\nGee = v1\n# Gee = v2\n")).1 =
      pys "[Packages]\nGee = v2\n" ∧
    (pys "# Gee = v2\n") ∉
      readlines (maybe_update_ini [] [] (pys "[Packages]\nGee = v1\n# Gee = v2\n")).1 ∧
    (pys "Gee = v2\n") ∈
      readlines (maybe_update_ini [] [] (pys "[Packages]\nGee = v1\n# Gee = v2\n")).1 ∧
    tlookup [] (pys "Gee") = none := by
  decide

/-- C3 (amended): a package that appears as a commented entry
`# key = value` in the old `[Packages]` section, whose key is not in the
discovered set and **is not named by any other line of that section**, is
regenerated as a commented entry carrying its previously recorded
resolver id — neither deleted nor reactivated (though if the key is still
in the global registry with a different id, an additional commented
record for it is also emitted).  The final conjunct records that the
regenerated section of `maybe_update_ini` is exactly the sorted
deduplicated line set the other conjuncts speak about. -/
theorem unused_commented_package_preserved
    (Packages selfPackages : Table) (content k v : PyStr)
    (hk : goodKeyB k = true) (hv : goodValB v = true)
    (hkeys : ∀ e ∈ selfPackages, '=' ∉ e.1)
    (hdisc : tlookup selfPackages k = none)
    (hmem : (lineInactive k v ++ pys "\n") ∈ (splitHeader (readlines content)).2.2 ∨
            lineInactive k v ∈ (splitHeader (readlines content)).2.2)
    (huniq : ∀ l ∈ (splitHeader (readlines content)).2.2,
        l = lineInactive k v ++ pys "\n" ∨ l = lineInactive k v ∨ parsedName l ≠ some k) :
    lineInactive k v ∈
      sortSD (allSectionLines
        (mergeBody selfPackages (splitHeader (readlines content)).2.2) Packages) ∧
    (∀ x, lineActive k x ∉
      sortSD (allSectionLines
        (mergeBody selfPackages (splitHeader (readlines content)).2.2) Packages)) ∧
    (maybe_update_ini Packages selfPackages content).1 =
      joinAll (splitHeader (readlines content)).1 ++
        (pys "[Packages]\n" ++
          List.intercalate (pys "\n")
            (sortSD (allSectionLines
              (mergeBody selfPackages (splitHeader (readlines content)).2.2) Packages)) ++
          pys "\n") := by
  obtain ⟨hA, _, hC⟩ := mergeBody_comment_preserved k v hk hv
    (splitHeader (readlines content)).2.2 selfPackages hdisc huniq
  have hfound := hC hmem
  have hne : k ≠ [] := (goodKeyB_spec k hk).1
  have hkeys1 : ∀ e ∈ mergeBody selfPackages (splitHeader (readlines content)).2.2,
      '=' ∉ e.1 := mergeBody_keys_eqfree _ selfPackages hkeys
  refine ⟨?_, ?_, rfl⟩
  · rw [mem_sortSD]
    have hment : (('#' :: ' ' :: k), v) ∈
        mergeBody selfPackages (splitHeader (readlines content)).2.2 :=
      mem_of_tlookup_eq_some _ _ _ hfound
    have : lineActive ('#' :: ' ' :: k) v ∈ allSectionLines
        (mergeBody selfPackages (splitHeader (readlines content)).2.2) Packages := by
      apply List.mem_append_left
      exact List.mem_map_of_mem (fun e => lineActive e.1 e.2) hment
    have heq : lineActive ('#' :: ' ' :: k) v = lineInactive k v := rfl
    rw [← heq]
    exact this
  · intro x hx
    rw [mem_sortSD] at hx
    unfold allSectionLines at hx
    rcases List.mem_append.mp hx with hx | hx
    · rw [List.mem_map] at hx
      obtain ⟨e, he, heq⟩ := hx
      obtain ⟨k1, v1⟩ := e
      have hek : k1 = k :=
        (lineActive_key_inj k1 v1 k x (hkeys1 (k1, v1) he) (goodKeyB_spec k hk).2.2.2.2.2.1
          heq).1
      subst hek
      have := isSome_tlookup_of_mem _ _ _ he
      rw [hA] at this
      simp at this
    · rw [List.mem_map] at hx
      obtain ⟨e, he, heq⟩ := hx
      obtain ⟨c, rest, hcr, hc⟩ := (goodKeyB_spec k hk).2.1
      have hhead : '#' = c := by
        have h0 := congrArg (fun l => l.head?) heq
        rw [hcr] at h0
        simpa [lineInactive, lineActive, pys] using h0
      rw [← hhead] at hc
      exact absurd hc (by decide)

/-- Witness for C3's amended theorem: the commented entry
`# Unused = old-1.0`, not rediscovered and mentioned on no other line,
survives the merge as the same commented line. -/
theorem unused_commented_package_preserved_witness :
    goodKeyB (pys "Unused") = true ∧
    tlookup [(pys "Gtk", pys "gtk+-3.0")] (pys "Unused") = none ∧
    lineInactive (pys "Unused") (pys "old-1.0") ∈
      sortSD (allSectionLines
        (mergeBody [(pys "Gtk", pys "gtk+-3.0")]
          (splitHeader (readlines
            (pys "[General]\nx = 1\n[Packages]\n# Unused = old-1.0\nGtk = gtk+-3.0\n"))).2.2)
        [(pys "Gee", pys "gee-0.8")]) :=
  ⟨by decide, by decide,
   (unused_commented_package_preserved [(pys "Gee", pys "gee-0.8")]
     [(pys "Gtk", pys "gtk+-3.0")]
     (pys "[General]\nx = 1\n[Packages]\n# Unused = old-1.0\nGtk = gtk+-3.0\n")
     (pys "Unused") (pys "old-1.0") (by decide) (by decide) (by decide) (by decide)
     (by decide) (by decide)).1⟩

/-! ## Claim C4: local-override exclusivity -/

/-- The §3 invariant of the spec: a name is never simultaneously a key of
the global registry and of the project-local package table. -/
def ExclusiveKeys (P L : Table) : Prop := ∀ k ∈ tkeys P, k ∉ tkeys L

instance (P L : Table) : Decidable (ExclusiveKeys P L) :=
  inferInstanceAs (Decidable (∀ k ∈ tkeys P, k ∉ tkeys L))

/-- C4: both operations that move a name into the project-local table — a
non-master settings file's `Packages` entry (`read_ini_item`,
`src/vb.py:201-207`), and a scan discovery (`update_packages`,
`src/vb.py:270-275`) — preserve the exclusivity invariant, and when they
succeed the processed name is afterwards absent from the global registry
and present in the local table. -/
theorem local_override_exclusive :
    (∀ (Packages packages P' L' : Table) (line : PyStr),
        read_ini_item_packages false Packages packages line = some (P', L') →
        ExclusiveKeys Packages packages → ExclusiveKeys P' L') ∧
    (∀ (Packages packages : Table) (line k0 v0 : PyStr),
        splitEq line = some (k0, v0) →
        ∀ P' L', read_ini_item_packages false Packages packages line = some (P', L') →
          tlookup P' (titleCase (asciiLower (pstrip k0))) = none ∧
            (tlookup L' (titleCase (asciiLower (pstrip k0)))).isSome = true) ∧
    (∀ (s s' : ScanState) (pkg : PyStr),
        update_packages s pkg = some s' →
        (ExclusiveKeys s.Packages s.packages → ExclusiveKeys s'.Packages s'.packages) ∧
        tlookup s'.Packages pkg = none ∧ (tlookup s'.packages pkg).isSome = true) := by
  refine ⟨?_, ?_, ?_⟩
  · intro Packages packages P' L' line hrun hex
    unfold read_ini_item_packages at hrun
    cases hsp : splitEq line with
    | none =>
      rw [hsp] at hrun
      simp at hrun
      obtain ⟨h1, h2⟩ := hrun
      rw [← h1, ← h2]; exact hex
    | some kv =>
      obtain ⟨k0, v0⟩ := kv
      rw [hsp] at hrun
      simp at hrun
      cases hl : tlookup Packages (titleCase (asciiLower (pstrip k0))) with
      | none => rw [hl] at hrun; simp at hrun
      | some w =>
        rw [hl] at hrun
        simp at hrun
        obtain ⟨h1, h2⟩ := hrun
        subst h1; subst h2
        intro k hk hkL
        rw [mem_tkeys_iff_isSome, tlookup_tremove] at hk
        rw [mem_tkeys_iff_isSome, tlookup_tinsert] at hkL
        by_cases hq : k = titleCase (asciiLower (pstrip k0))
        · simp [hq] at hk
        · have hq' : ¬ titleCase (asciiLower (pstrip k0)) = k := fun hh => hq hh.symm
          simp [hq, hq'] at hk hkL
          exact hex k ((mem_tkeys_iff_isSome _ _).mpr hk) ((mem_tkeys_iff_isSome _ _).mpr hkL)
  · intro Packages packages line k0 v0 hsp P' L' hrun
    unfold read_ini_item_packages at hrun
    rw [hsp] at hrun
    simp at hrun
    cases hl : tlookup Packages (titleCase (asciiLower (pstrip k0))) with
    | none => rw [hl] at hrun; simp at hrun
    | some w =>
      rw [hl] at hrun
      simp at hrun
      obtain ⟨h1, h2⟩ := hrun
      subst h1; subst h2
      constructor
      · rw [tlookup_tremove]; simp
      · rw [tlookup_tinsert]; simp
  · intro s s' pkg hrun
    unfold update_packages at hrun
    cases hl : tlookup s.Packages pkg with
    | none => rw [hl] at hrun; simp at hrun
    | some v =>
      rw [hl] at hrun
      simp at hrun
      subst hrun
      refine ⟨?_, ?_, ?_⟩
      · intro hex k hk hkL
        simp only at hk hkL
        rw [mem_tkeys_iff_isSome, tlookup_tremove] at hk
        rw [mem_tkeys_iff_isSome, tlookup_tinsert] at hkL
        by_cases hq : k = pkg
        · simp [hq] at hk
        · have hq' : ¬ pkg = k := fun hh => hq hh.symm
          simp [hq, hq'] at hk hkL
          exact hex k ((mem_tkeys_iff_isSome _ _).mpr hk) ((mem_tkeys_iff_isSome _ _).mpr hkL)
      · simp only
        rw [tlookup_tremove]; simp
      · simp only
        rw [tlookup_tinsert]; simp

/-- Witness for C4 at a concrete input: reading `gee = 1.0` from a
non-master file when `Gee` is a global default moves `Gee` into the local
table and out of the registry, preserving exclusivity. -/
theorem local_override_exclusive_witness :
    read_ini_item_packages false [(pys "Gee", pys "gee-0.8")] [] (pys "gee = 1.0") =
        some ([], [(pys "Gee", pys "1.0")]) ∧
    ExclusiveKeys [(pys "Gee", pys "gee-0.8")] [] ∧
    ExclusiveKeys [] [(pys "Gee", pys "1.0")] :=
  ⟨by decide, by decide,
   local_override_exclusive.1 [(pys "Gee", pys "gee-0.8")] [] [] [(pys "Gee", pys "1.0")]
     (pys "gee = 1.0") (by decide) (by decide)⟩

/-! ## Claim C10: KeyError on unknown local package entry -/

/-- C10: for a non-master settings file, a `Packages` line `key = value`
is processed successfully exactly when the title-cased key is currently a
global default; otherwise `Packages.pop(key)` raises an uncaught
`KeyError` (`src/vb.py:207`), modelled by `none`. -/
theorem read_ini_item_keyerror (Packages packages : Table) (line k0 v0 : PyStr)
    (h : splitEq line = some (k0, v0)) :
    read_ini_item_packages false Packages packages line = none ↔
      tlookup Packages (titleCase (asciiLower (pstrip k0))) = none := by
  unfold read_ini_item_packages
  rw [h]
  cases hl : tlookup Packages (titleCase (asciiLower (pstrip k0))) <;> simp [hl]

/-- Witness for C10: reading `gee = 1.0` from a non-master file whose
global registry only knows `Gtk` crashes with `KeyError`. -/
theorem read_ini_item_keyerror_witness :
    splitEq (pys "gee = 1.0") = some (pys "gee ", pys " 1.0") ∧
    (read_ini_item_packages false [(pys "Gtk", pys "gtk+-3.0")] [] (pys "gee = 1.0") = none ↔
      tlookup [(pys "Gtk", pys "gtk+-3.0")] (titleCase (asciiLower (pstrip (pys "gee ")))) =
        none) :=
  ⟨by decide,
   read_ini_item_keyerror [(pys "Gtk", pys "gtk+-3.0")] [] (pys "gee = 1.0") (pys "gee ")
     (pys " 1.0") (by decide)⟩

/-! ## Claim C9: category-entry reset in the settings-file parser -/

/-- C9 counterexample: a bracket line that transitions into `Packages`
discards nothing — the previously accumulated package table (here
non-empty) is kept as-is, contrary to the claim that entering `Packages`
resets that category's accumulated content. -/
theorem read_ini_category_packages_counterexample :
    read_ini_category
        ⟨[(pys "Gee", pys "gee-0.8")], [pys "README"], pys "T", pys "U", pys "W"⟩
        Category.GENERAL (pys "[Packages]") =
      (⟨[(pys "Gee", pys "gee-0.8")], [pys "README"], pys "T", pys "U", pys "W"⟩,
        Category.PACKAGES) ∧
    ([(pys "Gee", pys "gee-0.8")] : Table) ≠ [] := by
  decide

/-- C9 (amended): a bracket line that is recognised (contains `]`) resets
`extra_files` when entering `ExtraFiles` and the respective template when
entering a template category, but entering `Packages` leaves the whole
state — in particular the accumulated package table — unchanged
(`src/vb.py:167-187`). -/
theorem read_ini_category_resets (st : IniState) (category : Category) (line : PyStr)
    (i : Nat) (h : line.findIdx? (· = ']') = some i) :
    (read_ini_category st category line).1.packages = st.packages ∧
    ((read_ini_category st category line).2 = Category.PACKAGES →
      (read_ini_category st category line).1 = st) ∧
    ((read_ini_category st category line).2 = Category.EXTRA_FILES →
      (read_ini_category st category line).1.extra_files = []) ∧
    ((read_ini_category st category line).2 = Category.APP_TEMPLATE →
      (read_ini_category st category line).1.app_template = []) ∧
    ((read_ini_category st category line).2 = Category.GUI_TEMPLATE →
      (read_ini_category st category line).1.gui_template = []) ∧
    ((read_ini_category st category line).2 = Category.LIB_TEMPLATE →
      (read_ini_category st category line).1.lib_template = []) := by
  simp only [read_ini_category, h]
  split_ifs <;> simp

/-- Witness for C9 at a concrete input: `[ExtraFiles]` clears the
built-in extra-files default. -/
theorem read_ini_category_resets_witness :
    (pys "[ExtraFiles]").findIdx? (· = ']') = some 11 ∧
    (read_ini_category ⟨[(pys "Gee", pys "g")], [pys "README", pys "LICENSE"], [], [], []⟩
        Category.GENERAL (pys "[ExtraFiles]")).1.extra_files = [] :=
  ⟨by decide,
   (read_ini_category_resets ⟨[(pys "Gee", pys "g")], [pys "README", pys "LICENSE"], [], [], []⟩
      Category.GENERAL (pys "[ExtraFiles]") 11 (by decide)).2.2.1 (by decide)⟩

/-! ## Claim C6: dependency-closure filtering -/

/-- Modelled from the spec's words for comparison with the source: the
claim's filter condition "its path lies under the configured toolchain
runtime root", read as the configured root being a path-prefix of the
line's path.  The source's actual filter is the fixed substring test
`'mingw64' in dll`. -/
def pathLiesUnder (root p : PyStr) : Bool := root.isPrefixOf p

/-- C6 counterexample: for the configured root `C:/bin/msys64`, the ldd
line `libgtk-3-0.dll => /mingw64/bin/libgtk-3-0.dll (0x7ff8)` matches the
`name => path` shape with a path that does not lie under the configured
root, yet its library is copied — refuting "copied iff shape-match and
path under the configured root". -/
theorem maybe_copy_win_dlls_counterexample :
    ¬ ((maybe_copy_win_dll_line (pys "C:/bin/msys64")
          (pys "libgtk-3-0.dll => /mingw64/bin/libgtk-3-0.dll (0x7ff8)")).isSome = true ↔
        ∃ p, dll_rx_match (pys "libgtk-3-0.dll => /mingw64/bin/libgtk-3-0.dll (0x7ff8)") =
            some p ∧ pathLiesUnder (pys "C:/bin/msys64") p = true) := by
  intro h
  obtain ⟨p, hp, hu⟩ := h.mp (by decide)
  have hps : dll_rx_match (pys "libgtk-3-0.dll => /mingw64/bin/libgtk-3-0.dll (0x7ff8)") =
      some (pys "/mingw64/bin/libgtk-3-0.dll") := by decide
  rw [hps] at hp
  rw [← Option.some_inj.mp hp] at hu
  exact absurd hu (by decide)

/-- C6 (amended): a lister output line's library is copied iff the line
matches the `name => path` shape and the captured path contains the fixed
substring `mingw64`; the copied source file is then the configured msys2
root prepended to that path (so every copied file lives under the
configured root, but the root itself plays no part in the filter). -/
theorem maybe_copy_win_dlls_spec :
    (∀ winmsys2 line out : PyStr,
        maybe_copy_win_dll_line winmsys2 line = some out ↔
          ∃ p, dll_rx_match line = some p ∧ isSubstr (pys "mingw64") p = true ∧
            out = winmsys2 ++ p) ∧
    (∀ (winmsys2 : PyStr) (lines : List PyStr) (out : PyStr),
        out ∈ maybe_copy_win_dlls winmsys2 lines ↔
          ∃ line ∈ lines, maybe_copy_win_dll_line winmsys2 line = some out) := by
  constructor
  · intro winmsys2 line out
    unfold maybe_copy_win_dll_line
    cases h : dll_rx_match line with
    | none => simp
    | some p =>
      cases hs : isSubstr (pys "mingw64") p with
      | true =>
        simp [hs]
        exact eq_comm
      | false => simp [hs]
  · intro winmsys2 lines out
    unfold maybe_copy_win_dlls
    exact List.mem_filterMap

/-! ## Claim C7: archive self-exclusion -/

/-- C7: when the target archive's path is itself among the globbed files
of the distribution directory, the produced entry list contains an entry
for every file except the archive itself, and never the archive
(`src/vb.py:443-446`; `samefile` modelled as path equality). -/
theorem win_zip_excludes_self (distFiles : List PyStr) (target name dist : PyStr)
    (_htarget : target ∈ distFiles) :
    target ∉ (win_zip_entries distFiles target name dist).map Prod.fst ∧
    (∀ f ∈ distFiles, f ≠ target →
      (f, name ++ '/' :: relative_to dist f) ∈ win_zip_entries distFiles target name dist) ∧
    (∀ e ∈ win_zip_entries distFiles target name dist, e.1 ∈ distFiles ∧ e.1 ≠ target) := by
  refine ⟨?_, ?_, ?_⟩
  · intro hmem
    rw [List.mem_map] at hmem
    obtain ⟨e, he, hfst⟩ := hmem
    unfold win_zip_entries at he
    rw [List.mem_map] at he
    obtain ⟨f, hf, rfl⟩ := he
    rw [List.mem_filter] at hf
    have : f ≠ target := by simpa using hf.2
    exact this hfst
  · intro f hf hne
    unfold win_zip_entries
    exact List.mem_map_of_mem _ (List.mem_filter.mpr ⟨hf, by simpa using hne⟩)
  · intro e he
    unfold win_zip_entries at he
    rw [List.mem_map] at he
    obtain ⟨f, hf, rfl⟩ := he
    rw [List.mem_filter] at hf
    exact ⟨hf.1, by simpa using hf.2⟩

/-- Witness for C7: a zip whose path lies inside `dist` excludes itself
from its own entries. -/
theorem win_zip_excludes_self_witness :
    (pys "dist/app-1.0.zip") ∈ [pys "dist/app.exe", pys "dist/app-1.0.zip"] ∧
    (pys "dist/app-1.0.zip") ∉
      (win_zip_entries [pys "dist/app.exe", pys "dist/app-1.0.zip"] (pys "dist/app-1.0.zip")
        (pys "app-1.0") (pys "dist")).map Prod.fst :=
  ⟨by decide,
   (win_zip_excludes_self [pys "dist/app.exe", pys "dist/app-1.0.zip"] (pys "dist/app-1.0.zip")
     (pys "app-1.0") (pys "dist") (by decide)).1⟩

/-! ## Claim C5: scanner early exit -/

theorem scanLines_stop (cfg : ScanCfg) (s : ScanState) (ls : List PyStr)
    (h : more_to_do cfg s = false) : scanLines cfg s ls = some (s, 0) := by
  cases ls with
  | nil => rfl
  | cons l ls => simp [scanLines, h]

/-- C5: once the stopping condition (`more_to_do` false) holds, no further
source file is opened and no further line of the current file is
examined: a scan whose condition fails initially opens no file; a file
after which the condition fails is the last file opened; a line check
that fails examines no further line; and a line that satisfies the
condition mid-file ends the file scan immediately
(`src/vb.py:235-259`). -/
theorem discover_early_exit :
    (∀ cfg (packages Packages : Table) version files,
        more_to_do cfg ⟨packages, Packages, version, tkeys Packages⟩ = false →
        discoverScan cfg packages Packages version files =
          some (⟨packages, Packages, version, tkeys Packages⟩, 0)) ∧
    (∀ cfg (s : ScanState) ls, more_to_do cfg s = false → scanLines cfg s ls = some (s, 0)) ∧
    (∀ cfg (s s' : ScanState) f fs n, scanLines cfg s f = some (s', n) →
        more_to_do cfg s' = false → scanFiles cfg s (f :: fs) = some (s', 1)) ∧
    (∀ cfg (s s' : ScanState) l ls, more_to_do cfg s = true → stepLine s l = some s' →
        more_to_do cfg s' = false → scanLines cfg s (l :: ls) = some (s', 1)) := by
  refine ⟨?_, ?_, ?_, ?_⟩
  · intro cfg p P v files h
    simp [discoverScan, h]
  · intro cfg s ls h
    exact scanLines_stop cfg s ls h
  · intro cfg s s' f fs n hscan hstop
    simp [scanFiles, hscan, hstop]
  · intro cfg s s' l ls hmore hstep hstop
    simp [scanLines, hmore, hstep, scanLines_stop cfg s' ls hstop]

/-- Witness for C5: with `Gee` the only pending package and no version
wanted, the first file's first line discovers it and the second file is
never opened (`scanFiles` reports 1 file opened). -/
theorem discover_early_exit_witness :
    scanLines ⟨false, false⟩ ⟨[], [(pys "Gee", pys "gee-0.8")], none, [pys "Gee"]⟩
        [pys "uses Gee;"] =
      some (⟨[(pys "Gee", pys "gee-0.8")], [], none, [pys "Gee"]⟩, 1) ∧
    more_to_do ⟨false, false⟩ ⟨[(pys "Gee", pys "gee-0.8")], [], none, [pys "Gee"]⟩ = false ∧
    scanFiles ⟨false, false⟩ ⟨[], [(pys "Gee", pys "gee-0.8")], none, [pys "Gee"]⟩
        [[pys "uses Gee;"], [pys "uses Gtk;"]] =
      some (⟨[(pys "Gee", pys "gee-0.8")], [], none, [pys "Gee"]⟩, 1) :=
  ⟨by decide, by decide,
   discover_early_exit.2.2.1 ⟨false, false⟩
     ⟨[], [(pys "Gee", pys "gee-0.8")], none, [pys "Gee"]⟩
     ⟨[(pys "Gee", pys "gee-0.8")], [], none, [pys "Gee"]⟩
     [pys "uses Gee;"] [[pys "uses Gtk;"]] 1 (by decide) (by decide)⟩

/-! ## Claim C2: discovery moves matched packages out of the alternation -/

theorem fwmAux_mem (names : List PyStr) (prev : Option Char) (l : PyStr) (p : PyStr)
    (h : fwmAux names prev l = some p) : p ∈ names := by
  induction l generalizing prev with
  | nil => simp [fwmAux] at h
  | cons c rest ih =>
    simp only [fwmAux] at h
    cases hf : names.find? (fun n => matchWordAt prev n (c :: rest)) with
    | some n =>
      rw [hf] at h
      cases h
      exact List.mem_of_find?_eq_some hf
    | none =>
      rw [hf] at h
      exact ih (some c) h

/-- C2 counterexample: with `Gee` and `Gtk` both pending, the single line
`use Gee and Gtk here` contains whole-word occurrences of both names, but
on a hit the scanner `continue`s to the next line, so only the leftmost
match `Gee` is discovered and `Gtk` remains pending for the rest of the
scan — refuting "for every source line containing a whole-word occurrence
of a pending package name, that package moves to the discovered set". -/
theorem discover_second_name_counterexample :
    discoverScan ⟨false, false⟩ [] [(pys "Gee", pys "gee-0.8"), (pys "Gtk", pys "gtk+-3.0")]
        none [[pys "use Gee and Gtk here"]] =
      some (⟨[(pys "Gee", pys "gee-0.8")], [(pys "Gtk", pys "gtk+-3.0")], none, [pys "Gtk"]⟩,
        1) ∧
    findWordMatch [pys "Gtk"] (pys "use Gee and Gtk here") = some (pys "Gtk") := by
  decide

/-- C2 (amended): on each line only the leftmost whole-word match among
the names the alternation was built from is processed: that one package
moves from pending to discovered, and when the pending set remains
non-empty the alternation is rebuilt from the remaining names, after
which it can never match the discovered name again
(`src/vb.py:242-252`, `src/vb.py:270-275`). -/
theorem scan_moves_leftmost_match (s : ScanState) (line p : PyStr)
    (hrx : s.rxNames = tkeys s.Packages)
    (hmatch : findWordMatch s.rxNames line = some p) :
    ∃ s', stepLine s line = some s' ∧
      (tlookup s'.packages p).isSome = true ∧
      tlookup s'.Packages p = none ∧
      s'.Packages = tremove s.Packages p ∧
      (s'.Packages ≠ [] → s'.rxNames = tkeys s'.Packages ∧
        ∀ l', findWordMatch s'.rxNames l' ≠ some p) := by
  have hp : p ∈ tkeys s.Packages := by
    rw [← hrx]
    exact fwmAux_mem _ _ _ _ hmatch
  have hsome := (mem_tkeys_iff_isSome _ _).mp hp
  cases hl : tlookup s.Packages p with
  | none => rw [hl] at hsome; simp at hsome
  | some v =>
    refine ⟨{ s with packages := tinsert s.packages p v,
                     Packages := tremove s.Packages p,
                     rxNames := if (tremove s.Packages p).isEmpty then s.rxNames
                                else tkeys (tremove s.Packages p) }, ?_, ?_, ?_, rfl, ?_⟩
    · simp only [stepLine, hmatch, update_packages, hl]
    · show (tlookup (tinsert s.packages p v) p).isSome = true
      rw [tlookup_tinsert]
      simp
    · show tlookup (tremove s.Packages p) p = none
      rw [tlookup_tremove]
      simp
    · intro hne
      have hne' : tremove s.Packages p ≠ [] := hne
      have hemp : (tremove s.Packages p).isEmpty = false := by
        cases htr : tremove s.Packages p with
        | nil => exact absurd htr hne'
        | cons a t => rfl
      have hrx' : (if (tremove s.Packages p).isEmpty then s.rxNames
          else tkeys (tremove s.Packages p)) = tkeys (tremove s.Packages p) := by
        rw [hemp]
        simp
      refine ⟨hrx', ?_⟩
      intro l' hcon
      have hcon' : findWordMatch (if (tremove s.Packages p).isEmpty then s.rxNames
          else tkeys (tremove s.Packages p)) l' = some p := hcon
      rw [hrx'] at hcon'
      have hp' := fwmAux_mem _ _ _ _ hcon'
      have hsome' := (mem_tkeys_iff_isSome _ _).mp hp'
      rw [tlookup_tremove] at hsome'
      simp at hsome'

/-- Witness for C2's amended theorem: the line `use Gee and Gtk here`
with both names pending moves `Gee` (the leftmost match) and rebuilds the
matcher over `Gtk` only. -/
theorem scan_moves_leftmost_match_witness :
    ([pys "Gee", pys "Gtk"] =
      tkeys ([(pys "Gee", pys "gee-0.8"), (pys "Gtk", pys "gtk+-3.0")] : Table)) ∧
    findWordMatch [pys "Gee", pys "Gtk"] (pys "use Gee and Gtk here") = some (pys "Gee") ∧
    (∃ s', stepLine ⟨[], [(pys "Gee", pys "gee-0.8"), (pys "Gtk", pys "gtk+-3.0")], none,
          [pys "Gee", pys "Gtk"]⟩ (pys "use Gee and Gtk here") = some s' ∧
      (tlookup s'.packages (pys "Gee")).isSome = true ∧
      tlookup s'.Packages (pys "Gee") = none ∧
      s'.Packages = tremove [(pys "Gee", pys "gee-0.8"), (pys "Gtk", pys "gtk+-3.0")]
        (pys "Gee") ∧
      (s'.Packages ≠ [] → s'.rxNames = tkeys s'.Packages ∧
        ∀ l', findWordMatch s'.rxNames l' ≠ some (pys "Gee"))) :=
  ⟨by decide, by decide,
   scan_moves_leftmost_match
     ⟨[], [(pys "Gee", pys "gee-0.8"), (pys "Gtk", pys "gtk+-3.0")], none,
       [pys "Gee", pys "Gtk"]⟩
     (pys "use Gee and Gtk here") (pys "Gee") (by decide) (by decide)⟩

/-! ## Claim C8: version extraction -/

/-- C8 counterexample: the identifier `VErsion` is case-insensitively
`version`, and `const string VErsion = "1.2.3";` is a constant string
assignment to it, yet `VERSION_RX` (which accepts exactly the spellings
`version`, `Version`, `VERSION`) extracts nothing. -/
theorem version_rx_counterexample :
    VERSION_RX_search (pys "const string VErsion = \"1.2.3\";") = none ∧
    asciiLower (pys "VErsion") = pys "version" := by
  decide

theorem matchVersionAt_idents (v : PyStr) (hv : v ≠ []) (hq : '"' ∉ v) :
    matchVersionAt (pys "const string version = \"" ++ (v ++ pys "\";")) = some v ∧
    matchVersionAt (pys "const string Version = \"" ++ (v ++ pys "\";")) = some v ∧
    matchVersionAt (pys "const string VERSION = \"" ++ (v ++ pys "\";")) = some v := by
  have hx : ∀ c ∈ v, (!decide (c = '"')) = true := by
    intro c hc
    simp only [Bool.not_eq_true', decide_eq_false_iff_not]
    intro h
    exact hq (h ▸ hc)
  have ht := takeWhile_append_stop (fun c => !decide (c = '"')) v '"' (';' :: []) hx (by decide)
  have hv' : v.isEmpty = false := by
    cases v with
    | nil => exact absurd rfl hv
    | cons a l => rfl
  have hh : ∀ (w : PyStr) (h0 : 0 < (v ++ w).length), ¬ (v ++ w)[0] = '"' := by
    intro w h0 hc
    cases v with
    | nil => exact absurd rfl hv
    | cons a l =>
      simp at hc
      exact hq (by simp [hc])
  have e1 : pys "const" = 'c' :: 'o' :: 'n' :: 's' :: 't' :: [] := rfl
  have e2 : pys "string" = 's' :: 't' :: 'r' :: 'i' :: 'n' :: 'g' :: [] := rfl
  have e3 : pys "version" = 'v' :: 'e' :: 'r' :: 's' :: 'i' :: 'o' :: 'n' :: [] := rfl
  have e4 : pys "Version" = 'V' :: 'e' :: 'r' :: 's' :: 'i' :: 'o' :: 'n' :: [] := rfl
  have e5 : pys "VERSION" = 'V' :: 'E' :: 'R' :: 'S' :: 'I' :: 'O' :: 'N' :: [] := rfl
  have e6 : pys "=" = '=' :: [] := rfl
  have e7 : pys ";" = ';' :: [] := rfl
  refine ⟨?_, ?_, ?_⟩
  · show matchVersionAt ('c' :: 'o' :: 'n' :: 's' :: 't' :: ' ' :: 's' :: 't' :: 'r' :: 'i' :: 'n' :: 'g' :: ' ' ::
      'v' :: 'e' :: 'r' :: 's' :: 'i' :: 'o' :: 'n' :: ' ' :: '=' :: ' ' :: '"' :: (v ++ '"' :: ';' ::[])) = some v
    simp +decide [matchVersionAt, litAlt, litP, ws1, ws0, e1, e2, e3, e4, e5, e6, e7,
      List.isPrefixOf, isPySpace, ht.1, ht.2, hv', hh]
  · show matchVersionAt ('c' :: 'o' :: 'n' :: 's' :: 't' :: ' ' :: 's' :: 't' :: 'r' :: 'i' :: 'n' :: 'g' :: ' ' ::
      'V' :: 'e' :: 'r' :: 's' :: 'i' :: 'o' :: 'n' :: ' ' :: '=' :: ' ' :: '"' :: (v ++ '"' :: ';' ::[])) = some v
    simp +decide [matchVersionAt, litAlt, litP, ws1, ws0, e1, e2, e3, e4, e5, e6, e7,
      List.isPrefixOf, isPySpace, ht.1, ht.2, hv', hh]
  · show matchVersionAt ('c' :: 'o' :: 'n' :: 's' :: 't' :: ' ' :: 's' :: 't' :: 'r' :: 'i' :: 'n' :: 'g' :: ' ' ::
      'V' :: 'E' :: 'R' :: 'S' :: 'I' :: 'O' :: 'N' :: ' ' :: '=' :: ' ' :: '"' :: (v ++ '"' :: ';' ::[])) = some v
    simp +decide [matchVersionAt, litAlt, litP, ws1, ws0, e1, e2, e3, e4, e5, e6, e7,
      List.isPrefixOf, isPySpace, ht.1, ht.2, hv', hh]

theorem VERSION_RX_search_head (c : Char) (rest v : PyStr)
    (h : matchVersionAt (c :: rest) = some v) : VERSION_RX_search (c :: rest) = some v := by
  simp [VERSION_RX_search, h]

theorem update_packages_version (s : ScanState) (pkg : PyStr) (s' : ScanState)
    (h : update_packages s pkg = some s') : s'.version = s.version := by
  unfold update_packages at h
  cases hl : tlookup s.Packages pkg with
  | none => rw [hl] at h; simp at h
  | some v => rw [hl] at h; cases h; rfl

theorem stepLine_version_mono (s s' : ScanState) (l : PyStr) (w : PyStr)
    (h : stepLine s l = some s') (hw : s.version = some w) : s'.version = some w := by
  unfold stepLine at h
  cases hm : findWordMatch s.rxNames l with
  | some p =>
    rw [hm] at h
    rw [update_packages_version s p s' h, hw]
  | none =>
    rw [hm] at h
    by_cases hg : ((tlookup s.Packages GIO).isSome && GIO_RX_search l) = true
    · rw [if_pos hg] at h
      rw [update_packages_version s GIO s' h, hw]
    · rw [if_neg hg] at h
      have hn : s.version.isNone = false := by rw [hw]; rfl
      rw [hn] at h
      simp at h
      rw [← h]
      exact hw

theorem scanLines_version_mono (cfg : ScanCfg) (ls : List PyStr) :
    ∀ (s s' : ScanState) (n : Nat) (w : PyStr), scanLines cfg s ls = some (s', n) →
      s.version = some w → s'.version = some w := by
  induction ls with
  | nil =>
    intro s s' n w h hw
    simp [scanLines] at h
    rw [← h.1]
    exact hw
  | cons l ls ih =>
    intro s s' n w h hw
    simp only [scanLines] at h
    by_cases hm : more_to_do cfg s = true
    · rw [if_pos hm] at h
      cases hs : stepLine s l with
      | none => simp [hs] at h
      | some s1 =>
        cases hr : scanLines cfg s1 ls with
        | none => simp [hs, hr] at h
        | some r =>
          simp [hs, hr] at h
          rw [← h.1]
          exact ih s1 r.1 r.2 w hr (stepLine_version_mono s s1 l w hs hw)
    · rw [if_neg hm] at h
      simp at h
      rw [← h.1]
      exact hw

theorem scanFiles_version_mono (cfg : ScanCfg) (files : List (List PyStr)) :
    ∀ (s s' : ScanState) (n : Nat) (w : PyStr), scanFiles cfg s files = some (s', n) →
      s.version = some w → s'.version = some w := by
  induction files with
  | nil =>
    intro s s' n w h hw
    simp [scanFiles] at h
    rw [← h.1]
    exact hw
  | cons f fs ih =>
    intro s s' n w h hw
    simp only [scanFiles] at h
    cases hs : scanLines cfg s f with
    | none => simp [hs] at h
    | some r =>
      have hr1 := scanLines_version_mono cfg f s r.1 r.2 w hs hw
      by_cases hm : more_to_do cfg r.1 = true
      · cases hq : scanFiles cfg r.1 fs with
        | none => simp [hs, hm, hq] at h
        | some q =>
          simp [hs, hm, hq] at h
          rw [← h.1]
          exact ih r.1 q.1 q.2 w hq hr1
      · simp [hs, hm] at h
        rw [← h.1]
        exact hr1

/-- C8 (amended): `VERSION_RX` recognises a constant string assignment
whose identifier is exactly one of `version`, `Version`, `VERSION` (not
arbitrary case mixtures) and captures the quoted literal; and once a
version has been captured, later lines and files never overwrite it, so
the first matching occurrence in file-then-line order wins
(`src/vb.py:254-257`, `src/vb.py:567-568`). -/
theorem version_extraction (v : PyStr) (hv : v ≠ []) (hq : '"' ∉ v) :
    (VERSION_RX_search (pys "const string version = \"" ++ (v ++ pys "\";")) = some v ∧
     VERSION_RX_search (pys "const string Version = \"" ++ (v ++ pys "\";")) = some v ∧
     VERSION_RX_search (pys "const string VERSION = \"" ++ (v ++ pys "\";")) = some v) ∧
    (∀ cfg (s : ScanState) files r, scanFiles cfg s files = some r →
      s.version = some v → r.1.version = some v) := by
  obtain ⟨h1, h2, h3⟩ := matchVersionAt_idents v hv hq
  refine ⟨⟨?_, ?_, ?_⟩, ?_⟩
  · exact VERSION_RX_search_head _ _ _ h1
  · exact VERSION_RX_search_head _ _ _ h2
  · exact VERSION_RX_search_head _ _ _ h3
  · intro cfg s files r h hw
    exact scanFiles_version_mono cfg files s r.1 r.2 v h hw

/-- Witness for C8's amended theorem at `v = "1.2.3"`. -/
theorem version_extraction_witness :
    (pys "1.2.3" ≠ []) ∧ ('"' ∉ pys "1.2.3") ∧
    VERSION_RX_search (pys "const string Version = \"" ++ (pys "1.2.3" ++ pys "\";")) =
      some (pys "1.2.3") :=
  ⟨by decide, by decide,
   ((version_extraction (pys "1.2.3") (by decide) (by decide)).1).2.1⟩

end VB
